import Mathlib

/-!
# Perceptron_1.0: numeric kernel, linear classifier and trainer

A shallow embedding of `Perceptron/model/math.go`, `Perceptron/model/perceptron.go`,
`Perceptron/model/training.go` and of `Accuracy` in `Perceptron/utils/metrics.go`.

* In namespace `model`, `float64` is read as exact arithmetic: every `float64` value is
  a rational number (`ℚ`), so rounding, infinities and NaN are outside that model. Two
  refinements stand beside it: namespace `float64` gives `ExpTaylor` and `Sigmoid` with
  every operation rounded to IEEE 754 binary64, and `ExtValue` adds `+Inf` to the range
  reduction of `Log`.
* A Go slice is a `List`; an index that is out of range makes the Go program panic,
  which the model renders as `none`. Where the sharing of backing arrays matters
  (`Train` writes the weights in place), slices are addresses into a `Memory`.
* Go `int` values are `ℤ` (loop counters that only count upwards from zero are `ℕ`).
* Every `for` loop of the source is a recursive function on the number of iterations.
-/

namespace model

/-! ## math.go -/

/-- Series loop of `ExpTaylor` (`for i := 1; i < 25; i++`): the first argument is the
number of iterations still allowed, then come `result`, `term` and `n` as they stand
at the top of the loop body. -/
def expLoop (x : ℚ) : ℕ → ℚ → ℚ → ℚ → ℚ
  | 0, result, _, _ => result
  | k + 1, result, term, n =>
    let term := term * (x / n)
    let result := result + term
    let n := n + 1.0
    if term < 1e-15 * result then result else expLoop x k result term n

/-- Go `ExpTaylor`: saturation outside `[-20, 20]`, halving above `5`, otherwise the
series loop run for at most 24 iterations. -/
def ExpTaylor (x : ℚ) : ℚ :=
  if _h20 : x > 20.0 then 485165195.4097903
  else if _hm20 : x < -20.0 then 2.0611536224385579e-9
  else if _h5 : x > 5.0 then
    let half := ExpTaylor (x * 0.5)
    half * half
  else expLoop x 24 1.0 1.0 1.0
termination_by ⌈x⌉.toNat
decreasing_by
  have hpos : (0 : ℤ) < ⌈x⌉ := Int.ceil_pos.mpr (by linarith)
  have hle : ⌈x * 0.5⌉ ≤ ⌈x - 1⌉ := Int.ceil_le_ceil (by norm_num; linarith)
  have hlt : ⌈x * 0.5⌉ < ⌈x⌉ := by
    rw [Int.ceil_sub_one] at hle
    omega
  exact (Int.toNat_lt_toNat hpos).mpr hlt

/-- Go `Sigmoid`: the two saturation constants, the reflection for negative `z`, and
`ez / (ez + 1)` otherwise. -/
def Sigmoid (z : ℚ) : ℚ :=
  if _hlo : z < -20.0 then 2.0611536224385579e-9
  else if _hhi : z > 20.0 then 0.9999999979388464
  else if _hneg : z < 0 then 1.0 - Sigmoid (-z)
  else
    let ez := ExpTaylor z
    ez / (ez + 1.0)
termination_by (if z < 0 then 1 else 0)
decreasing_by
  have h1 : ¬ (-z < 0) := by linarith
  simp [h1, _hneg]

/-- Series loop of the branch of `Log` for `0.8 ≤ x ≤ 1.2` (`for i := 1; i <= 30; i++`):
iterations still allowed, then `result`, `term`, `n` at the top of the body. -/
def logNearLoop (y : ℚ) : ℕ → ℚ → ℚ → ℚ → ℚ
  | 0, result, _, _ => result
  | k + 1, result, term, n =>
    let result := result + term / n
    let term := term * (-y)
    let n := n + 1.0
    if term / n < 1e-15 ∧ term / n > -1e-15 then result else logNearLoop y k result term n

/-- Doubling loop of `Log` (`for y < 0.5 { y *= 2.0; k-- }`). `Log` enters it only with
`y > 0`, where it terminates; on `y ≤ 0` the source loop would never end, and
the model returns the pair unchanged so that the function is total. -/
def logDouble (y : ℚ) (k : ℤ) : ℚ × ℤ :=
  if _h : 0 < y ∧ y < 0.5 then logDouble (y * 2.0) (k - 1) else (y, k)
termination_by ⌊y⁻¹⌋.toNat
decreasing_by
  obtain ⟨hpos, hlt⟩ := _h
  have hinv : (2 : ℚ) < y⁻¹ := by
    rw [lt_inv_comm₀ (by norm_num) hpos]
    norm_num
    linarith
  have hfl : (2 : ℤ) ≤ ⌊y⁻¹⌋ := Int.le_floor.mpr (by push_cast; linarith)
  have hstep : ⌊(y * 2.0)⁻¹⌋ < ⌊y⁻¹⌋ := by
    rw [Int.floor_lt]
    have h1 : (y * 2.0)⁻¹ = y⁻¹ / 2 := by
      rw [mul_inv]; norm_num; ring
    rw [h1]
    have h2 : y⁻¹ < (⌊y⁻¹⌋ : ℚ) + 1 := Int.lt_floor_add_one _
    have h3 : (2 : ℚ) ≤ (⌊y⁻¹⌋ : ℚ) := by exact_mod_cast hfl
    linarith
  exact (Int.toNat_lt_toNat (by omega)).mpr hstep

/-- Halving loop of `Log` (`for y >= 2.0 { y /= 2.0; k++ }`). -/
def logHalve (y : ℚ) (k : ℤ) : ℚ × ℤ :=
  if _h : y ≥ 2.0 then logHalve (y / 2.0) (k + 1) else (y, k)
termination_by ⌊y⌋.toNat
decreasing_by
  have hfl : (2 : ℤ) ≤ ⌊y⌋ := Int.le_floor.mpr (by push_cast; linarith)
  have hstep : ⌊y / 2.0⌋ < ⌊y⌋ := by
    rw [Int.floor_lt]
    have h3 : y < (⌊y⌋ : ℚ) + 1 := Int.lt_floor_add_one _
    norm_num
    linarith
  exact (Int.toNat_lt_toNat (by omega)).mpr hstep

/-- Series loop of the range-reduced branch of `Log` (`for n := 2.0; n <= 30.0; n++`):
iterations still allowed (29 at the start, one for each `n` from 2 to 30), then `n`,
`result`, `tPower` and `sign` at the top of the body. -/
def logSeriesLoop (t : ℚ) : ℕ → ℚ → ℚ → ℚ → ℚ → ℚ
  | 0, _, result, _, _ => result
  | k + 1, n, result, tPower, sign =>
    let term := sign * tPower / n
    let result := result + term
    let tPower := tPower * t
    let sign := sign * -1.0
    let term := if term < 0 then -term else term
    if term < 1e-15 then result else logSeriesLoop t k (n + 1) result tPower sign

/-- Range reduction of `Log`: `k := 0; y := x`, then one of the two loops. -/
def logReduce (x : ℚ) : ℚ × ℤ :=
  if x < 1.0 then logDouble x 0 else logHalve x 0

/-- Go `Log`. -/
def Log (x : ℚ) : ℚ :=
  if x ≤ 0.0 then -1000.0
  else if x = 1.0 then 0.0
  else if x ≥ 0.8 ∧ x ≤ 1.2 then
    let y := x - 1.0
    logNearLoop y 30 0.0 y 1.0
  else
    let yk := logReduce x
    let ln2 : ℚ := 0.6931471805599453
    let t := yk.1 - 1.0
    let result := logSeriesLoop t 29 2.0 t (t * t) (-1.0)
    (yk.2 : ℚ) * ln2 + result

/-- The clamp at the head of the loop body of `CrossEntropy`. -/
def clampPrediction (p : ℚ) : ℚ :=
  if p < 1e-15 then 1e-15
  else if p > 1.0 - 1e-15 then 1.0 - 1e-15
  else p

/-- Loop of `CrossEntropy` (`for i := 0; i < len(y); i++`): `sum` after the first `i`
iterations, `none` when `y[i]` or `yPred[i]` is out of range. -/
def crossEntropyLoop (y yPred : List ℚ) : ℕ → Option ℚ
  | 0 => some 0.0
  | i + 1 => do
    let sum ← crossEntropyLoop y yPred i
    let yi ← y[i]?
    let pi ← yPred[i]?
    let prediction := clampPrediction pi
    some (sum + (yi * Log prediction + (1.0 - yi) * Log (1.0 - prediction)))

/-- Go `CrossEntropy`. -/
def CrossEntropy (y yPred : List ℚ) : Option ℚ := do
  let sum ← crossEntropyLoop y yPred y.length
  some (-sum / (y.length : ℚ))

/-! ## perceptron.go -/

/-- Go `Perceptron`. -/
structure Perceptron where
  Weights : List ℚ
  Bias : ℚ
deriving DecidableEq, Repr

/-- Loop of `Predict` (`for i, feature := range x`): `z` after the first `i`
iterations, `none` when `p.Weights[i]` is out of range. -/
def predictLoop (weights : List ℚ) (bias : ℚ) (x : List ℚ) : ℕ → Option ℚ
  | 0 => some bias
  | i + 1 => do
    let z ← predictLoop weights bias x i
    let feature ← x[i]?
    let w ← weights[i]?
    some (z + feature * w)

/-- Go `(*Perceptron).Predict`. -/
def Perceptron.Predict (p : Perceptron) (x : List ℚ) : Option ℚ := do
  let z ← predictLoop p.Weights p.Bias x x.length
  some (Sigmoid z)

/-- Go `(*Perceptron).PredictBatch`: one prediction for each row, in order. -/
def Perceptron.PredictBatch (p : Perceptron) (X : List (List ℚ)) : Option (List ℚ) :=
  X.mapM p.Predict

/-! ## training.go -/

/-- Go `TrainingConfig`. -/
structure TrainingConfig where
  LearningRate : ℚ
  Epochs : ℤ
  LogEvery : ℤ
  EarlyStopDelta : ℚ
deriving DecidableEq, Repr

/-- Go `DefaultTrainingConfig`. -/
def DefaultTrainingConfig : TrainingConfig :=
  { LearningRate := 0.1, Epochs := 100, LogEvery := 10, EarlyStopDelta := 0.0001 }

/-- What `Train` prints: the early-stop line (epoch, loss change) and the periodic
log line (epoch, loss). -/
inductive TrainEvent where
  | earlyStop (epoch : ℕ) (delta : ℚ)
  | logLoss (epoch : ℕ) (loss : ℚ)
deriving DecidableEq, Repr

/-- Inner loop of the weight update (`for i := 0; i < numSamples; i++`) for weight
`j`: `gradient` after the first `i` iterations. -/
def gradientLoop (predictions y : List ℚ) (X : List (List ℚ)) (j : ℕ) : ℕ → Option ℚ
  | 0 => some 0.0
  | i + 1 => do
    let gradient ← gradientLoop predictions y X j i
    let pi ← predictions[i]?
    let yi ← y[i]?
    let row ← X[i]?
    let xij ← row[j]?
    some (gradient + (pi - yi) * xij)

/-- Outer loop of the weight update (`for j := range p.Weights`): the weight slice
after the first `j` iterations, each of which overwrites `p.Weights[j]` in place. -/
def weightsLoop (lr : ℚ) (predictions y : List ℚ) (X : List (List ℚ)) (numSamples : ℕ)
    (weights : List ℚ) : ℕ → Option (List ℚ)
  | 0 => some weights
  | j + 1 => do
    let ws ← weightsLoop lr predictions y X numSamples weights j
    let gradient ← gradientLoop predictions y X j numSamples
    let gradient := gradient / (numSamples : ℚ)
    let wj ← ws[j]?
    some (ws.set j (wj - lr * gradient))

/-- Loop of the bias update (`for i := 0; i < numSamples; i++`): `biasGradient`
after the first `i` iterations. -/
def biasLoop (predictions y : List ℚ) : ℕ → Option ℚ
  | 0 => some 0.0
  | i + 1 => do
    let biasGradient ← biasLoop predictions y i
    let pi ← predictions[i]?
    let yi ← y[i]?
    some (biasGradient + (pi - yi))

/-- The parameter update of one epoch of `Train` (weights, then bias), from the
`predictions` computed at the head of the epoch. -/
def updateStep (lr : ℚ) (X : List (List ℚ)) (y predictions : List ℚ) (p : Perceptron) :
    Option Perceptron := do
  let numSamples := X.length
  let ws ← weightsLoop lr predictions y X numSamples p.Weights p.Weights.length
  let biasGradient ← biasLoop predictions y numSamples
  let biasGradient := biasGradient / (numSamples : ℚ)
  some { Weights := ws, Bias := p.Bias - lr * biasGradient }

/-- Epoch loop of `Train` (`for epoch := 0; epoch < config.Epochs; epoch++`): the first
argument is `config.Epochs - epoch`, the number of iterations still allowed. Returns
the final model and the lines printed, `none` when the run panics (an index out
of range, or `epoch % config.LogEvery` with `LogEvery = 0`). -/
def trainLoop (X : List (List ℚ)) (y : List ℚ) (config : TrainingConfig) :
    ℕ → ℕ → ℚ → Perceptron → Option (Perceptron × List TrainEvent)
  | 0, _, _, p => some (p, [])
  | left + 1, epoch, prevLoss, p => do
    let predictions ← p.PredictBatch X
    let loss ← CrossEntropy y predictions
    if epoch > 0 ∧ prevLoss - loss < config.EarlyStopDelta then
      some (p, [TrainEvent.earlyStop epoch (prevLoss - loss)])
    else do
      let prevLoss := loss
      let p ← updateStep config.LearningRate X y predictions p
      if config.LogEvery = 0 then none
      else do
        let line :=
          if Int.tmod (epoch : ℤ) config.LogEvery = 0 then [TrainEvent.logLoss epoch loss]
          else []
        let rest ← trainLoop X y config left (epoch + 1) prevLoss p
        some (rest.1, line ++ rest.2)

/-- Go `(*Perceptron).Train`; `config = none` is the nil pointer. -/
def Perceptron.Train (p : Perceptron) (X : List (List ℚ)) (y : List ℚ)
    (config : Option TrainingConfig) : Option (Perceptron × List TrainEvent) :=
  let config := config.getD DefaultTrainingConfig
  trainLoop X y config config.Epochs.toNat 0 0 p

/-! ## Vocabulary of the statements about `Train` -/

/-- One whole epoch of `Train` without the early-stop test: the forward pass followed
by the parameter update computed from it. -/
def epochUpdate (lr : ℚ) (X : List (List ℚ)) (y : List ℚ) (p : Perceptron) :
    Option Perceptron := do
  let predictions ← p.PredictBatch X
  updateStep lr X y predictions p

/-- The model after `e` gradient updates. -/
def afterUpdates (lr : ℚ) (X : List (List ℚ)) (y : List ℚ) (p : Perceptron) :
    ℕ → Option Perceptron
  | 0 => some p
  | e + 1 => do
    let q ← afterUpdates lr X y p e
    epochUpdate lr X y q

/-- The loss `L_e`: `CrossEntropy(y, PredictBatch(X))` of the model after `e` gradient
updates. -/
def lossAfter (lr : ℚ) (X : List (List ℚ)) (y : List ℚ) (p : Perceptron) (e : ℕ) :
    Option ℚ := do
  let q ← afterUpdates lr X y p e
  let predictions ← q.PredictBatch X
  CrossEntropy y predictions

/-! ## The Taylor series as the documentation of `ExpTaylor` words it -/

/-- The term `x^n / n!`. -/
def taylorTerm (x : ℚ) (n : ℕ) : ℚ := x ^ n / (n.factorial : ℚ)

/-- The partial sum `S_m(x) = Σ_{k=0..m} x^k / k!`. -/
def taylorSum (x : ℚ) (m : ℕ) : ℚ := ((List.range (m + 1)).map (taylorTerm x)).sum

/-- The stopping index with the cutoff taken on the magnitude of the term: the least
`n` in `1..24` with `|x^n / n!| < 1e-15 * S_n(x)`, or `24` when there is none. -/
def taylorCutoff (x : ℚ) : ℕ :=
  (((List.range 24).map (· + 1)).find?
    (fun n => decide (|taylorTerm x n| < 1e-15 * taylorSum x n))).getD 24

/-- The value the documented series gives: `S_m(x)` at the stopping index `m`. -/
def ExpTaylorSpec (x : ℚ) : ℚ := taylorSum x (taylorCutoff x)

/-! ## More of perceptron.go, and the vocabulary of the later statements -/

/-- Initialisation loop of `NewPerceptronWithSeed` (`for i := range weights`): the
slice after the first `i` iterations, each of which overwrites `weights[i]` with the
next draw of the generator times `0.01`. `draw i` is the `i`-th value returned by
`rng.NormFloat64()`. -/
def initLoop (draw : ℕ → ℚ) (weights : List ℚ) : ℕ → List ℚ
  | 0 => weights
  | i + 1 => (initLoop draw weights i).set i (draw i * 0.01)

/-- Go `NewPerceptronWithSeed`. The generator of `math/rand` is not part of the
repository: `normFloat64 seed i` stands for the `i`-th value that
`rand.New(rand.NewSource(seed)).NormFloat64()` returns. `make` panics on a negative
length, which is `none`. -/
def NewPerceptronWithSeed (normFloat64 : ℤ → ℕ → ℚ) (numFeatures : ℤ) (seed : ℤ) :
    Option Perceptron :=
  if numFeatures < 0 then none
  else
    let weights := List.replicate numFeatures.toNat (0 : ℚ)
    some { Weights := initLoop (normFloat64 seed) weights weights.length, Bias := 0.0 }

/-- `Predict` as a method on its pointer receiver: the receiver as the call leaves
it, and the value returned. The body reads `p.Bias` and `p.Weights[i]` and assigns
to neither. -/
def Perceptron.PredictRun (p : Perceptron) (x : List ℚ) : Option (Perceptron × ℚ) := do
  let r ← p.Predict x
  some (p, r)

/-- `PredictBatch` as a method on its pointer receiver: each call of `Predict` works on
the receiver as the previous call left it. -/
def Perceptron.PredictBatchRun (p : Perceptron) :
    List (List ℚ) → Option (Perceptron × List ℚ)
  | [] => some (p, [])
  | x :: rest => do
    let first ← p.PredictRun x
    let others ← first.1.PredictBatchRun rest
    some (others.1, first.2 :: others.2)

/-- The doubling loop of `Log` exactly as written (`for y < 0.5 { y *= 2.0; k-- }`),
with a bound on the number of iterations; `none` when the bound is reached. -/
def logDoubleFuel : ℕ → ℚ → ℤ → Option (ℚ × ℤ)
  | 0, _, _ => none
  | fuel + 1, y, k => if y < 0.5 then logDoubleFuel fuel (y * 2.0) (k - 1) else some (y, k)

/-- The halving loop of `Log` exactly as written (`for y >= 2.0 { y /= 2.0; k++ }`),
with a bound on the number of iterations; `none` when the bound is reached. -/
def logHalveFuel : ℕ → ℚ → ℤ → Option (ℚ × ℤ)
  | 0, _, _ => none
  | fuel + 1, y, k => if y ≥ 2.0 then logHalveFuel fuel (y / 2.0) (k + 1) else some (y, k)

/-- The alternating series `t - t^2/2 + t^3/3 - ...` truncated after the term in
`t^N`. -/
def altSeries (t : ℚ) (N : ℕ) : ℚ :=
  ∑ n ∈ Finset.range N, (-1) ^ n * t ^ (n + 1) / ((n : ℚ) + 1)

end model

/-! ## utils/metrics.go -/

namespace utils

open model

/-- Go `MetricsConfig`. -/
structure MetricsConfig where
  Threshold : ℚ
  ExtendedMetrics : Bool
deriving DecidableEq, Repr

/-- Go `DefaultMetricsConfig`. -/
def DefaultMetricsConfig : MetricsConfig :=
  { Threshold := 0.5, ExtendedMetrics := false }

/-- Loop of `Accuracy` (`for i, pred := range predictions`): `correct` after the first
`i` iterations, `none` when `y[i]` is out of range. -/
def accuracyLoop (predictions y : List ℚ) (threshold : ℚ) : ℕ → Option ℕ
  | 0 => some 0
  | i + 1 => do
    let correct ← accuracyLoop predictions y threshold i
    let pred ← predictions[i]?
    let binaryPred : ℚ := if pred > threshold then 1.0 else 0.0
    let yi ← y[i]?
    some (if binaryPred = yi then correct + 1 else correct)

/-- Go `Accuracy`; `config = none` is the nil pointer. -/
def Accuracy (p : Perceptron) (X : List (List ℚ)) (y : List ℚ)
    (config : Option MetricsConfig) : Option ℚ := do
  let config := config.getD DefaultMetricsConfig
  let predictions ← p.PredictBatch X
  let correct ← accuracyLoop predictions y config.Threshold predictions.length
  some (100.0 * (correct : ℚ) / (y.length : ℚ))

end utils

/-! ## `Train` on slices that live in memory

Go slices are references: `p.Weights`, `y` and the rows of `X` each point to a backing
array, and two of them may point to the same one. Here a backing array is named by its
address, an index into the memory, and a slice is the whole array at its address. -/

namespace model

/-- The backing arrays, by address. -/
abbrev Memory := List (List ℚ)

/-- Go `Perceptron` with its `Weights` slice given by the address of its backing
array. -/
structure PerceptronRef where
  Weights : ℕ
  Bias : ℚ
deriving DecidableEq, Repr

/-- The rows of `X` as they stand in memory; `none` when an address is not allocated. -/
def derefRows (mem : Memory) (X : List ℕ) : Option (List (List ℚ)) :=
  X.mapM (fun address => mem[address]?)

/-- Outer loop of the weight update (`for j := range p.Weights`) on memory: the memory
after the first `j` iterations. Iteration `j` reads `y[i]` and `X[i][j]` from the
memory as the earlier iterations left it and writes `p.Weights[j]`. -/
def weightsLoopMem (lr : ℚ) (predictions : List ℚ) (X : List ℕ) (y : ℕ) (numSamples : ℕ)
    (weights : ℕ) (mem : Memory) : ℕ → Option Memory
  | 0 => some mem
  | j + 1 => do
    let m ← weightsLoopMem lr predictions X y numSamples weights mem j
    let rows ← derefRows m X
    let labels ← m[y]?
    let gradient ← gradientLoop predictions labels rows j numSamples
    let gradient := gradient / (numSamples : ℚ)
    let ws ← m[weights]?
    let wj ← ws[j]?
    some (m.set weights (ws.set j (wj - lr * gradient)))

/-- The parameter update of one epoch of `Train` on memory: the weight loop, then the
bias update, which reads `y` from the memory the weight loop left. -/
def updateStepMem (lr : ℚ) (X : List ℕ) (y : ℕ) (predictions : List ℚ) (p : PerceptronRef)
    (mem : Memory) : Option (Memory × PerceptronRef) := do
  let numSamples := X.length
  let ws ← mem[p.Weights]?
  let m ← weightsLoopMem lr predictions X y numSamples p.Weights mem ws.length
  let labels ← m[y]?
  let biasGradient ← biasLoop predictions labels numSamples
  let biasGradient := biasGradient / (numSamples : ℚ)
  some (m, { Weights := p.Weights, Bias := p.Bias - lr * biasGradient })

/-- Epoch loop of `Train` on memory; the arguments before the memory are those of
`trainLoop`. Returns the memory and the receiver as the run leaves them, and the lines
printed. -/
def trainLoopMem (X : List ℕ) (y : ℕ) (config : TrainingConfig) :
    ℕ → ℕ → ℚ → PerceptronRef → Memory →
      Option (Memory × PerceptronRef × List TrainEvent)
  | 0, _, _, p, mem => some (mem, p, [])
  | left + 1, epoch, prevLoss, p, mem => do
    let weights ← mem[p.Weights]?
    let rows ← derefRows mem X
    let labels ← mem[y]?
    let predictions ← (Perceptron.mk weights p.Bias).PredictBatch rows
    let loss ← CrossEntropy labels predictions
    if epoch > 0 ∧ prevLoss - loss < config.EarlyStopDelta then
      some (mem, p, [TrainEvent.earlyStop epoch (prevLoss - loss)])
    else do
      let prevLoss := loss
      let updated ← updateStepMem config.LearningRate X y predictions p mem
      if config.LogEvery = 0 then none
      else do
        let line :=
          if Int.tmod (epoch : ℤ) config.LogEvery = 0 then [TrainEvent.logLoss epoch loss]
          else []
        let rest ← trainLoopMem X y config left (epoch + 1) prevLoss updated.2 updated.1
        some (rest.1, rest.2.1, line ++ rest.2.2)

/-- Go `(*Perceptron).Train` on memory: `X` is the list of the addresses of its rows,
`y` the address of the labels. -/
def PerceptronRef.Train (p : PerceptronRef) (X : List ℕ) (y : ℕ)
    (config : Option TrainingConfig) (mem : Memory) :
    Option (Memory × PerceptronRef × List TrainEvent) :=
  let config := config.getD DefaultTrainingConfig
  trainLoopMem X y config config.Epochs.toNat 0 0 p mem

/-! ## The range reduction of `Log` on a value that may be `+Inf` -/

/-- A positive float64 value as the range reduction of `Log` meets it: a finite number,
or `+Inf`. -/
inductive ExtValue where
  | finite (q : ℚ)
  | posInf
deriving DecidableEq, Repr

/-- The comparison `v < c` with a finite constant. -/
def ExtValue.lt (v : ExtValue) (c : ℚ) : Bool :=
  match v with
  | ExtValue.finite q => decide (q < c)
  | ExtValue.posInf => false

/-- The comparison `v >= c` with a finite constant. -/
def ExtValue.ge (v : ExtValue) (c : ℚ) : Bool :=
  match v with
  | ExtValue.finite q => decide (q ≥ c)
  | ExtValue.posInf => true

/-- The comparison `v > c` with a finite constant. -/
def ExtValue.gt (v : ExtValue) (c : ℚ) : Bool :=
  match v with
  | ExtValue.finite q => decide (q > c)
  | ExtValue.posInf => true

/-- The product `v * c` with a finite positive constant: `+Inf * c = +Inf`. -/
def ExtValue.mul (v : ExtValue) (c : ℚ) : ExtValue :=
  match v with
  | ExtValue.finite q => ExtValue.finite (q * c)
  | ExtValue.posInf => ExtValue.posInf

/-- The quotient `v / c` by a finite positive constant: `+Inf / c = +Inf`. -/
def ExtValue.div (v : ExtValue) (c : ℚ) : ExtValue :=
  match v with
  | ExtValue.finite q => ExtValue.finite (q / c)
  | ExtValue.posInf => ExtValue.posInf

/-- The doubling loop of `Log` as written, on a value that may be `+Inf`, with a bound
on the number of iterations. -/
def logDoubleFuelExt : ℕ → ExtValue → ℤ → Option (ExtValue × ℤ)
  | 0, _, _ => none
  | fuel + 1, y, k =>
    if y.lt 0.5 then logDoubleFuelExt fuel (y.mul 2.0) (k - 1) else some (y, k)

/-- The halving loop of `Log` as written, on a value that may be `+Inf`, with a bound on
the number of iterations. -/
def logHalveFuelExt : ℕ → ExtValue → ℤ → Option (ExtValue × ℤ)
  | 0, _, _ => none
  | fuel + 1, y, k =>
    if y.ge 2.0 then logHalveFuelExt fuel (y.div 2.0) (k + 1) else some (y, k)

/-- The range reduction of `Log` as written (`k := 0; y := x`, then one of the two
loops), on a value that may be `+Inf`, with a bound on the number of iterations. -/
def logReduceFuelExt (fuel : ℕ) (x : ExtValue) : Option (ExtValue × ℤ) :=
  if x.lt 1.0 then logDoubleFuelExt fuel x 0 else logHalveFuelExt fuel x 0

end model

/-! ## `ExpTaylor` and `Sigmoid` with every operation rounded to float64

IEEE 754 binary64 with rounding to nearest, ties to even; a finite float64 is the
rational number it stands for. Each arithmetic operation of the source is the exact
operation followed by rounding, each decimal literal is rounded once. -/

namespace float64

/-- The power `2^e` for an integer exponent. -/
def pow2 (e : ℤ) : ℚ :=
  if 0 ≤ e then ((2 ^ e.toNat : ℕ) : ℚ) else 1 / ((2 ^ (-e).toNat : ℕ) : ℚ)

/-- The number of binary digits of `n`; the first argument bounds the recursion and is
taken to be `n` itself. -/
def bitLength : ℕ → ℕ → ℕ
  | 0, _ => 0
  | fuel + 1, n => if n = 0 then 0 else bitLength fuel (n / 2) + 1

/-- The exponent `e` with `2^e ≤ q < 2^(e+1)`, for `q > 0`: the difference of the bit
lengths of numerator and denominator, or one less. -/
def exponent (q : ℚ) : ℤ :=
  let e0 : ℤ := (bitLength q.num.natAbs q.num.natAbs : ℤ) - (bitLength q.den q.den : ℤ)
  if pow2 e0 ≤ q then e0 else e0 - 1

/-- Rounding to the nearest integer, ties to the even one. -/
def roundHalfEven (q : ℚ) : ℤ :=
  let f := Rat.floor q
  let r := q - (f : ℚ)
  if r < 1 / 2 then f
  else if r > 1 / 2 then f + 1
  else if f % 2 = 0 then f else f + 1

/-- The float64 nearest to `q` (ties to even): a multiple of `2^(e-52)` where `e` is the
exponent of `|q|`, and of `2^(-1074)` in the subnormal range. Magnitudes above the
largest float64 are outside this model. -/
def round (q : ℚ) : ℚ :=
  if q = 0 then 0
  else
    let a := |q|
    let e := max (exponent a) (-1022)
    let ulp := pow2 (e - 52)
    let r := (roundHalfEven (a / ulp) : ℚ) * ulp
    if q < 0 then -r else r

/-- The float64 sum. -/
def add (a b : ℚ) : ℚ := round (a + b)

/-- The float64 difference. -/
def sub (a b : ℚ) : ℚ := round (a - b)

/-- The float64 product. -/
def mul (a b : ℚ) : ℚ := round (a * b)

/-- The float64 quotient. -/
def div (a b : ℚ) : ℚ := round (a / b)

/-- Series loop of `ExpTaylor` on float64: as `model.expLoop`, every operation rounded. -/
def expLoop (x : ℚ) : ℕ → ℚ → ℚ → ℚ → ℚ
  | 0, result, _, _ => result
  | k + 1, result, term, n =>
    let term := mul term (div x n)
    let result := add result term
    let n := add n 1.0
    if term < mul (round 1e-15) result then result else expLoop x k result term n

/-- Go `ExpTaylor` on float64; the first argument bounds the depth of the recursion,
`none` when it is reached. -/
def ExpTaylor : ℕ → ℚ → Option ℚ
  | 0, _ => none
  | fuel + 1, x =>
    if x > 20.0 then some (round 485165195.4097903)
    else if x < -20.0 then some (round 2.0611536224385579e-9)
    else if x > 5.0 then do
      let half ← ExpTaylor fuel (mul x 0.5)
      some (mul half half)
    else some (expLoop x 24 1.0 1.0 1.0)

/-- Go `Sigmoid` on float64; the first argument bounds the depth of the recursion,
`none` when it is reached. -/
def Sigmoid : ℕ → ℚ → Option ℚ
  | 0, _ => none
  | fuel + 1, z =>
    if z < -20.0 then some (round 2.0611536224385579e-9)
    else if z > 20.0 then some (round 0.9999999979388464)
    else if z < 0 then do
      let s ← Sigmoid fuel (-z)
      some (sub 1.0 s)
    else do
      let ez ← ExpTaylor fuel z
      some (div ez (add ez 1.0))

end float64

/-! # Theorems -/

namespace model

/-! ## Unfolding lemmas for the branches of `ExpTaylor` and `Sigmoid` -/

theorem ExpTaylor_hi {x : ℚ} (h : 20 < x) : ExpTaylor x = 485165195.4097903 := by
  rw [ExpTaylor, dif_pos (by norm_num; exact h)]

theorem ExpTaylor_lo {x : ℚ} (h : x < -20) : ExpTaylor x = 2.0611536224385579e-9 := by
  rw [ExpTaylor, dif_neg (by norm_num; linarith), dif_pos (by norm_num; exact h)]

theorem ExpTaylor_half {x : ℚ} (h5 : 5 < x) (h20 : x ≤ 20) :
    ExpTaylor x = ExpTaylor (x * 0.5) * ExpTaylor (x * 0.5) := by
  rw [ExpTaylor, dif_neg (by norm_num; linarith), dif_neg (by norm_num; linarith),
    dif_pos (by norm_num; exact h5)]

theorem ExpTaylor_series {x : ℚ} (hlo : -20 ≤ x) (h5 : x ≤ 5) :
    ExpTaylor x = expLoop x 24 1.0 1.0 1.0 := by
  rw [ExpTaylor, dif_neg (by norm_num; linarith), dif_neg (by norm_num; linarith),
    dif_neg (by norm_num; linarith)]

theorem Sigmoid_lo {z : ℚ} (h : z < -20) : Sigmoid z = 2.0611536224385579e-9 := by
  rw [Sigmoid, dif_pos (by norm_num; exact h)]

theorem Sigmoid_hi {z : ℚ} (h : 20 < z) : Sigmoid z = 0.9999999979388464 := by
  rw [Sigmoid, dif_neg (by norm_num; linarith), dif_pos (by norm_num; exact h)]

theorem Sigmoid_neg {z : ℚ} (hlo : -20 ≤ z) (h : z < 0) :
    Sigmoid z = 1.0 - Sigmoid (-z) := by
  rw [Sigmoid, dif_neg (by norm_num; linarith), dif_neg (by norm_num; linarith),
    dif_pos h]

theorem Sigmoid_nonneg {z : ℚ} (h0 : 0 ≤ z) (hhi : z ≤ 20) :
    Sigmoid z = ExpTaylor z / (ExpTaylor z + 1.0) := by
  rw [Sigmoid, dif_neg (by norm_num; linarith), dif_neg (by norm_num; linarith),
    dif_neg (by linarith)]

/-! ## The series loop of `ExpTaylor` on non-negative arguments -/

theorem expLoop_succ (x : ℚ) (k : ℕ) (result term n : ℚ) :
    expLoop x (k + 1) result term n =
      if term * (x / n) < 1e-15 * (result + term * (x / n)) then result + term * (x / n)
      else expLoop x k (result + term * (x / n)) (term * (x / n)) (n + 1.0) := rfl

/-- With `x ≥ 0` the loop only adds non-negative terms, so it never returns less than
the running sum it is entered with. -/
theorem expLoop_ge {x : ℚ} (hx : 0 ≤ x) :
    ∀ (k : ℕ) (result term n : ℚ), 0 ≤ term → 0 < n → result ≤ expLoop x k result term n := by
  intro k
  induction k with
  | zero => intro result term n _ _; exact le_of_eq rfl
  | succ k ih =>
    intro result term n ht hn
    have hterm : 0 ≤ term * (x / n) := mul_nonneg ht (div_nonneg hx hn.le)
    rw [expLoop_succ]
    split
    · linarith
    · have hn1 : (0 : ℚ) < n + 1.0 := by norm_num; linarith
      have := ih (result + term * (x / n)) (term * (x / n)) (n + 1.0) hterm hn1
      linarith

theorem ExpTaylor_ge_one_of_le_five {x : ℚ} (h0 : 0 ≤ x) (h5 : x ≤ 5) : 1 ≤ ExpTaylor x := by
  rw [ExpTaylor_series (by linarith) h5]
  have := expLoop_ge h0 24 1.0 1.0 1.0 (by norm_num) (by norm_num)
  norm_num at this ⊢
  exact this

theorem ExpTaylor_ge_one_of_le_ten {x : ℚ} (h0 : 0 ≤ x) (h10 : x ≤ 10) : 1 ≤ ExpTaylor x := by
  by_cases h5 : x ≤ 5
  · exact ExpTaylor_ge_one_of_le_five h0 h5
  · push_neg at h5
    rw [ExpTaylor_half h5 (by linarith)]
    have h := ExpTaylor_ge_one_of_le_five (x := x * 0.5) (by norm_num; linarith)
      (by norm_num; linarith)
    nlinarith

/-- On non-negative arguments `ExpTaylor` is at least 1, in particular positive. -/
theorem ExpTaylor_ge_one {x : ℚ} (h0 : 0 ≤ x) : 1 ≤ ExpTaylor x := by
  by_cases h20 : 20 < x
  · rw [ExpTaylor_hi h20]; norm_num
  · push_neg at h20
    by_cases h10 : x ≤ 10
    · exact ExpTaylor_ge_one_of_le_ten h0 h10
    · push_neg at h10
      rw [ExpTaylor_half (by linarith) h20]
      have h := ExpTaylor_ge_one_of_le_ten (x := x * 0.5) (by norm_num; linarith)
        (by norm_num; linarith)
      nlinarith

/-- On `[0, 20]` the value of `Sigmoid` lies in `[1/2, 1)`. -/
theorem Sigmoid_nonneg_bounds {z : ℚ} (h0 : 0 ≤ z) (hhi : z ≤ 20) :
    1 / 2 ≤ Sigmoid z ∧ Sigmoid z < 1 := by
  rw [Sigmoid_nonneg h0 hhi]
  have h1 := ExpTaylor_ge_one h0
  have hpos : (0 : ℚ) < ExpTaylor z + 1.0 := by norm_num; linarith
  constructor
  · rw [le_div_iff₀ hpos]; norm_num; linarith
  · rw [div_lt_one hpos]; norm_num

/-! ## `Predict` -/

theorem predictLoop_eq_sum (weights : List ℚ) (bias : ℚ) (x : List ℚ) :
    ∀ i : ℕ, i ≤ x.length → i ≤ weights.length →
      predictLoop weights bias x i
        = some (bias + ∑ k ∈ Finset.range i, weights.getD k 0 * x.getD k 0) := by
  intro i
  induction i with
  | zero => intro _ _; simp [predictLoop]
  | succ i ih =>
    intro hx hw
    have hx1 : i < x.length := hx
    have hw1 : i < weights.length := hw
    rw [predictLoop, ih (by omega) (by omega), Finset.sum_range_succ]
    simp [List.getElem?_eq_getElem hx1, List.getElem?_eq_getElem hw1,
      List.getD_eq_getElem _ _ hx1, List.getD_eq_getElem _ _ hw1]
    ring

theorem Predict_eq_of_length (p : Perceptron) (x : List ℚ)
    (h : x.length = p.Weights.length) :
    p.Predict x = some (Sigmoid (p.Bias +
      ∑ i ∈ Finset.range p.Weights.length, p.Weights.getD i 0 * x.getD i 0)) := by
  rw [Perceptron.Predict, predictLoop_eq_sum _ _ _ _ le_rfl (by omega), h]
  rfl

theorem ExpTaylor_zero : ExpTaylor 0 = 1 := by
  rw [ExpTaylor_series (by norm_num) (by norm_num)]
  decide!

theorem Sigmoid_zero : Sigmoid 0 = 1 / 2 := by
  rw [Sigmoid_nonneg le_rfl (by norm_num), ExpTaylor_zero]
  norm_num

/-- C3: for every perceptron with weights `w` (length `F`) and bias `b` and every input
`x` with `len(x) = F`, `Predict(x) = Sigmoid(b + Σ_i w_i * x_i)`; in particular for
weights `[1.0]`, bias `0.0` and input `[0.0]`, `Predict` returns exactly `0.5`. -/
theorem C3_predict_is_sigmoid_of_logit (p : Perceptron) (x : List ℚ)
    (h : x.length = p.Weights.length) :
    p.Predict x = some (Sigmoid (p.Bias +
      ∑ i ∈ Finset.range p.Weights.length, p.Weights.getD i 0 * x.getD i 0))
    ∧ (Perceptron.mk [1.0] 0.0).Predict [0.0] = some 0.5 := by
  refine ⟨Predict_eq_of_length p x h, ?_⟩
  rw [Predict_eq_of_length (Perceptron.mk [1.0] 0.0) [0.0] rfl]
  have h0 : ((0.0 : ℚ) + ∑ i ∈ Finset.range [(1.0 : ℚ)].length,
      [(1.0 : ℚ)].getD i 0 * [(0.0 : ℚ)].getD i 0) = 0 := by
    simp
    norm_num
  simp only [h0, Sigmoid_zero]
  norm_num

/-- C3 at the perceptron with weights `[2, -1]`, bias `1/2` and the input `[3, 4]`. -/
theorem C3_predict_is_sigmoid_of_logit_witness :
    ([3, 4] : List ℚ).length = (Perceptron.mk [2, -1] (1 / 2)).Weights.length
    ∧ (Perceptron.mk [2, -1] (1 / 2)).Predict [3, 4] = some (Sigmoid (5 / 2)) := by
  refine ⟨rfl, ?_⟩
  rw [(C3_predict_is_sigmoid_of_logit (Perceptron.mk [2, -1] (1 / 2)) [3, 4] rfl).1]
  have h0 : ((1 / 2 : ℚ) + ∑ i ∈ Finset.range ([2, -1] : List ℚ).length,
      ([2, -1] : List ℚ).getD i 0 * ([3, 4] : List ℚ).getD i 0) = 5 / 2 := by
    simp [Finset.sum_range_succ]
    norm_num
  simp only [h0]

/-! ## Saturation -/

/-- C9: saturation. For every `x > 20`, `ExpTaylor(x) = 485165195.4097903`; for every
`x < -20`, `ExpTaylor(x) = 2.0611536224385579e-9`; for every `z > 20`,
`Sigmoid(z) = 0.9999999979388464`; for every `z < -20`,
`Sigmoid(z) = 2.0611536224385579e-9`. Both functions are total, so no input raises or
diverges. -/
theorem C9_saturation (x : ℚ) :
    (20 < x → ExpTaylor x = 485165195.4097903)
    ∧ (x < -20 → ExpTaylor x = 2.0611536224385579e-9)
    ∧ (20 < x → Sigmoid x = 0.9999999979388464)
    ∧ (x < -20 → Sigmoid x = 2.0611536224385579e-9) :=
  ⟨ExpTaylor_hi, ExpTaylor_lo, Sigmoid_hi, Sigmoid_lo⟩

/-- C9 at `ExpTaylor(25)`, `ExpTaylor(-25)`, `Sigmoid(25)` and `Sigmoid(-25)`. -/
theorem C9_saturation_witness :
    ExpTaylor 25 = 485165195.4097903 ∧ ExpTaylor (-25) = 2.0611536224385579e-9
    ∧ Sigmoid 25 = 0.9999999979388464 ∧ Sigmoid (-25) = 2.0611536224385579e-9 :=
  ⟨(C9_saturation 25).1 (by norm_num), (C9_saturation (-25)).2.1 (by norm_num),
   (C9_saturation 25).2.2.1 (by norm_num), (C9_saturation (-25)).2.2.2 (by norm_num)⟩

/-! ## Symmetry and range of `Sigmoid` -/

/-- C4: for every `z` (reading `float64` as exact arithmetic),
`|Sigmoid(z) + Sigmoid(-z) - 1| ≤ 1e-9`, including for `|z| > 20` where both values
are the precomputed saturation constants. -/
theorem C4_sigmoid_symmetry (z : ℚ) : |Sigmoid z + Sigmoid (-z) - 1| ≤ 1e-9 := by
  rcases lt_trichotomy z 0 with hneg | hzero | hpos
  · by_cases hlo : z < -20
    · rw [Sigmoid_lo hlo, Sigmoid_hi (by linarith), abs_le]
      constructor <;> norm_num
    · push_neg at hlo
      rw [Sigmoid_neg hlo hneg]
      norm_num
  · subst hzero
    rw [neg_zero, Sigmoid_zero]
    norm_num
  · by_cases hhi : 20 < z
    · rw [Sigmoid_hi hhi, Sigmoid_lo (by linarith), abs_le]
      constructor <;> norm_num
    · push_neg at hhi
      rw [Sigmoid_neg (z := -z) (by linarith) (by linarith), neg_neg]
      norm_num

/-- C5: for every `z`, `0 < Sigmoid(z) < 1` strictly, on every branch: the two
saturation constants, the reflection `1 - Sigmoid(-z)` for `z < 0`, and
`ExpTaylor(z) / (ExpTaylor(z) + 1)` for `0 ≤ z ≤ 20`, whose denominator is never
zero. -/
theorem C5_sigmoid_range (z : ℚ) :
    (0 < Sigmoid z ∧ Sigmoid z < 1) ∧ (0 ≤ z → z ≤ 20 → ExpTaylor z + 1.0 ≠ 0) := by
  refine ⟨?_, fun h0 _ => ?_⟩
  · by_cases hlo : z < -20
    · rw [Sigmoid_lo hlo]; constructor <;> norm_num
    · push_neg at hlo
      by_cases hhi : 20 < z
      · rw [Sigmoid_hi hhi]; constructor <;> norm_num
      · push_neg at hhi
        by_cases hneg : z < 0
        · rw [Sigmoid_neg hlo hneg]
          obtain ⟨h1, h2⟩ := Sigmoid_nonneg_bounds (z := -z) (by linarith) (by linarith)
          constructor
          · norm_num; exact h2
          · norm_num; linarith
        · push_neg at hneg
          obtain ⟨h1, h2⟩ := Sigmoid_nonneg_bounds hneg hhi
          exact ⟨by linarith, h2⟩
  · have := ExpTaylor_ge_one h0
    have hpos : (0 : ℚ) < ExpTaylor z + 1.0 := by norm_num; linarith
    exact ne_of_gt hpos

/-- C5 at `z = 3`, where the quotient branch is taken. -/
theorem C5_sigmoid_range_witness :
    (0 < Sigmoid 3 ∧ Sigmoid 3 < 1) ∧ ExpTaylor 3 + 1.0 ≠ 0 :=
  ⟨(C5_sigmoid_range 3).1, (C5_sigmoid_range 3).2 (by norm_num) (by norm_num)⟩

/-! ## `CrossEntropy` -/

/-- The clamp of the source is the clamp into `[1e-15, 1 - 1e-15]`. -/
theorem clampPrediction_eq (p : ℚ) :
    clampPrediction p = max 1e-15 (min (1 - 1e-15) p) := by
  unfold clampPrediction
  by_cases h1 : p < 1e-15
  · rw [if_pos h1, max_eq_left]
    exact le_trans (min_le_right _ _) h1.le
  · rw [if_neg h1]
    push_neg at h1
    by_cases h2 : p > 1.0 - 1e-15
    · rw [if_pos h2]
      have h2' : (1 - 1e-15 : ℚ) ≤ p := by norm_num at h2 ⊢; linarith
      rw [min_eq_left h2', max_eq_right (by norm_num)]
      norm_num
    · rw [if_neg h2]
      have h2' : p ≤ (1 - 1e-15 : ℚ) := by norm_num at h2 ⊢; linarith
      rw [min_eq_right h2', max_eq_right h1]

theorem clampPrediction_bounds (p : ℚ) :
    1e-15 ≤ clampPrediction p ∧ clampPrediction p ≤ 1 - 1e-15 := by
  rw [clampPrediction_eq]
  refine ⟨le_max_left _ _, max_le (by norm_num) (min_le_left _ _)⟩

theorem clampPrediction_pos (p : ℚ) : 0 < clampPrediction p ∧ 0 < 1 - clampPrediction p := by
  obtain ⟨h1, h2⟩ := clampPrediction_bounds p
  constructor
  · exact lt_of_lt_of_le (by norm_num) h1
  · have : (0 : ℚ) < 1e-15 := by norm_num
    linarith

theorem crossEntropyLoop_eq_sum (y yPred : List ℚ) :
    ∀ i : ℕ, i ≤ y.length → i ≤ yPred.length →
      crossEntropyLoop y yPred i
        = some (∑ k ∈ Finset.range i,
            (y.getD k 0 * Log (clampPrediction (yPred.getD k 0))
              + (1 - y.getD k 0) * Log (1 - clampPrediction (yPred.getD k 0)))) := by
  intro i
  induction i with
  | zero => intro _ _; simp [crossEntropyLoop]; norm_num
  | succ i ih =>
    intro hy hp
    have hy1 : i < y.length := hy
    have hp1 : i < yPred.length := hp
    have h10 : (1.0 : ℚ) = 1 := by norm_num
    rw [crossEntropyLoop, ih (by omega) (by omega), Finset.sum_range_succ]
    simp [List.getElem?_eq_getElem hy1, List.getElem?_eq_getElem hp1,
      List.getD_eq_getElem _ _ hy1, List.getD_eq_getElem _ _ hp1, h10]

theorem CrossEntropy_eq_sum (y yPred : List ℚ) (hlen : y.length = yPred.length) :
    CrossEntropy y yPred
      = some (-(∑ k ∈ Finset.range y.length,
            (y.getD k 0 * Log (clampPrediction (yPred.getD k 0))
              + (1 - y.getD k 0) * Log (1 - clampPrediction (yPred.getD k 0))))
          / (y.length : ℚ)) := by
  rw [CrossEntropy, crossEntropyLoop_eq_sum y yPred _ le_rfl (by omega)]
  rfl

/-- C10: for every pair of equal-length non-empty sequences `y`, `yPred` (length `n`),
`CrossEntropy(y, yPred) = -(1/n) * Σ_i [y_i * Log(c_i) + (1 - y_i) * Log(1 - c_i)]`,
where `c_i` is `yPred_i` clamped into `[1e-15, 1 - 1e-15]`; both arguments handed to
`Log`, `c_i` and `1 - c_i`, are positive, so `Log` is never called on an argument
`≤ 0` and its `-1000` branch is never taken. -/
theorem C10_cross_entropy_formula (y yPred : List ℚ) (hlen : y.length = yPred.length)
    (_hne : 0 < y.length) :
    CrossEntropy y yPred
      = some (-(1 / (y.length : ℚ)) * ∑ i ∈ Finset.range y.length,
          (y.getD i 0 * Log (clampPrediction (yPred.getD i 0))
            + (1 - y.getD i 0) * Log (1 - clampPrediction (yPred.getD i 0))))
    ∧ ∀ i, i < y.length →
        clampPrediction (yPred.getD i 0) = max 1e-15 (min (1 - 1e-15) (yPred.getD i 0))
        ∧ 0 < clampPrediction (yPred.getD i 0)
        ∧ 0 < 1 - clampPrediction (yPred.getD i 0)
        ∧ ¬ (clampPrediction (yPred.getD i 0) ≤ 0.0)
        ∧ ¬ (1 - clampPrediction (yPred.getD i 0) ≤ 0.0) := by
  constructor
  · rw [CrossEntropy_eq_sum y yPred hlen]
    congr 1
    ring
  · intro i _
    obtain ⟨h1, h2⟩ := clampPrediction_pos (yPred.getD i 0)
    have h00 : (0.0 : ℚ) = 0 := by norm_num
    rw [h00]
    exact ⟨clampPrediction_eq _, h1, h2, not_le.mpr h1, not_le.mpr h2⟩

/-- C10 at `y = [1, 0]`, `yPred = [2, 1/2]`: the first prediction is clamped to
`1 - 1e-15`. -/
theorem C10_cross_entropy_formula_witness :
    CrossEntropy [1, 0] [2, 1 / 2]
      = some (-(1 / 2) * (Log (1 - 1e-15) + Log (1 / 2))) := by
  have h := (C10_cross_entropy_formula [1, 0] [2, 1 / 2] rfl (by decide)).1
  rw [h]
  have hc2 : clampPrediction 2 = 1 - 1e-15 := by
    rw [clampPrediction_eq]; norm_num
  have hc1 : clampPrediction (1 / 2) = 1 / 2 := by
    rw [clampPrediction_eq]; norm_num
  simp only [List.length_cons, List.length_nil, Finset.sum_range_succ, Finset.sum_range_zero,
    List.getD_cons_zero, List.getD_cons_succ, hc1, hc2]
  norm_num

/-! ## The parameter update of one epoch -/

theorem gradientLoop_eq_sum (predictions y : List ℚ) (X : List (List ℚ)) (j : ℕ) :
    ∀ i : ℕ, i ≤ predictions.length → i ≤ y.length → i ≤ X.length →
      (∀ r, r < i → j < (X.getD r []).length) →
      gradientLoop predictions y X j i
        = some (∑ k ∈ Finset.range i,
            (predictions.getD k 0 - y.getD k 0) * (X.getD k []).getD j 0) := by
  intro i
  induction i with
  | zero => intro _ _ _ _; simp [gradientLoop]; norm_num
  | succ i ih =>
    intro hp hy hX hrow
    have hp1 : i < predictions.length := hp
    have hy1 : i < y.length := hy
    have hX1 : i < X.length := hX
    have hr : j < (X.getD i []).length := hrow i (Nat.lt_succ_self i)
    rw [List.getD_eq_getElem _ _ hX1] at hr
    rw [gradientLoop, ih (by omega) (by omega) (by omega)
      (fun r hr' => hrow r (Nat.lt_succ_of_lt hr')), Finset.sum_range_succ]
    simp [List.getElem?_eq_getElem hp1, List.getElem?_eq_getElem hy1,
      List.getElem?_eq_getElem hX1, List.getElem?_eq_getElem hr]

theorem biasLoop_eq_sum (predictions y : List ℚ) :
    ∀ i : ℕ, i ≤ predictions.length → i ≤ y.length →
      biasLoop predictions y i
        = some (∑ k ∈ Finset.range i, (predictions.getD k 0 - y.getD k 0)) := by
  intro i
  induction i with
  | zero => intro _ _; simp [biasLoop]; norm_num
  | succ i ih =>
    intro hp hy
    have hp1 : i < predictions.length := hp
    have hy1 : i < y.length := hy
    rw [biasLoop, ih (by omega) (by omega), Finset.sum_range_succ]
    simp [List.getElem?_eq_getElem hp1, List.getElem?_eq_getElem hy1]

/-- The weight slice after the first `j` in-place updates: entries below `j` hold the
new value, the others still hold the old one. -/
theorem weightsLoop_eq (lr : ℚ) (predictions y : List ℚ) (X : List (List ℚ))
    (weights : List ℚ) (hp : X.length ≤ predictions.length) (hy : X.length ≤ y.length)
    (hrow : ∀ row ∈ X, row.length = weights.length) :
    ∀ j : ℕ, j ≤ weights.length →
      weightsLoop lr predictions y X X.length weights j
        = some ((List.range weights.length).map (fun k =>
            if k < j then
              weights.getD k 0 - lr * ((∑ i ∈ Finset.range X.length,
                (predictions.getD i 0 - y.getD i 0) * (X.getD i []).getD k 0)
                  / (X.length : ℚ))
            else weights.getD k 0)) := by
  intro j
  induction j with
  | zero =>
    intro _
    rw [weightsLoop]
    congr 1
    apply List.ext_getElem
    · simp
    · intro n h1 h2
      simp [List.getElem?_eq_getElem h1]
  | succ j ih =>
    intro hj
    have hj1 : j < weights.length := hj
    have hrows : ∀ r, r < X.length → j < (X.getD r []).length := by
      intro r hr
      rw [List.getD_eq_getElem _ _ hr, hrow _ (List.getElem_mem hr)]
      exact hj1
    rw [weightsLoop, ih (by omega), gradientLoop_eq_sum predictions y X j X.length hp hy le_rfl hrows]
    have hlen : j < ((List.range weights.length).map (fun k =>
            if k < j then
              weights.getD k 0 - lr * ((∑ i ∈ Finset.range X.length,
                (predictions.getD i 0 - y.getD i 0) * (X.getD i []).getD k 0)
                  / (X.length : ℚ))
            else weights.getD k 0)).length := by simpa using hj1
    simp only [Option.bind_eq_bind, Option.some_bind, List.getElem?_eq_getElem hlen]
    congr 1
    apply List.ext_getElem
    · simp
    · intro n h1 h2
      have hn : n < weights.length := by simpa using h2
      rw [List.getElem_set]
      by_cases hnj : j = n
      · subst hnj
        simp [List.getElem?_eq_getElem hj1]
      · rw [if_neg hnj]
        simp only [List.getElem_map, List.getElem_range]
        by_cases hlt : n < j
        · rw [if_pos hlt, if_pos (by omega)]
        · rw [if_neg hlt, if_neg (by omega)]

/-- With consistent dimensions the update of one epoch succeeds and is the synchronous
gradient step computed from `predictions`. -/
theorem updateStep_eq (lr : ℚ) (X : List (List ℚ)) (y predictions : List ℚ) (p : Perceptron)
    (hp : predictions.length = X.length) (hy : y.length = X.length)
    (hrow : ∀ row ∈ X, row.length = p.Weights.length) :
    updateStep lr X y predictions p
      = some
          { Weights := (List.range p.Weights.length).map (fun j =>
              p.Weights.getD j 0 - lr * ((∑ i ∈ Finset.range X.length,
                (predictions.getD i 0 - y.getD i 0) * (X.getD i []).getD j 0)
                  / (X.length : ℚ)))
            Bias := p.Bias - lr * ((∑ i ∈ Finset.range X.length,
                (predictions.getD i 0 - y.getD i 0)) / (X.length : ℚ)) } := by
  rw [updateStep, weightsLoop_eq lr predictions y X p.Weights (by omega) (by omega) hrow _ le_rfl,
    biasLoop_eq_sum predictions y X.length (by omega) (by omega)]
  simp only [Option.bind_eq_bind, Option.some_bind]
  congr 2
  apply List.map_congr_left
  intro k hk
  rw [if_pos (List.mem_range.mp hk)]

/-- With rows of the right length the forward pass succeeds, one prediction a row. -/
theorem PredictBatch_eq_map (p : Perceptron) (X : List (List ℚ))
    (hrow : ∀ row ∈ X, row.length = p.Weights.length) :
    p.PredictBatch X = some (X.map (fun x => Sigmoid (p.Bias +
      ∑ i ∈ Finset.range p.Weights.length, p.Weights.getD i 0 * x.getD i 0))) := by
  unfold Perceptron.PredictBatch
  induction X with
  | nil => rfl
  | cons x rest ih =>
    rw [List.mapM_cons, Predict_eq_of_length p x (hrow x (List.mem_cons_self _ _)),
      ih (fun row hr => hrow row (List.mem_cons_of_mem _ hr))]
    rfl

/-! ## The epoch loop of `Train` -/

/-- One iteration of the epoch loop whose forward pass, loss and update all succeed. -/
theorem trainLoop_succ_eq (X : List (List ℚ)) (y : List ℚ) (config : TrainingConfig)
    (left epoch : ℕ) (prevLoss : ℚ) (p q : Perceptron) (predictions : List ℚ) (loss : ℚ)
    (hpred : p.PredictBatch X = some predictions)
    (hloss : CrossEntropy y predictions = some loss)
    (hq : updateStep config.LearningRate X y predictions p = some q)
    (hL : config.LogEvery ≠ 0) :
    trainLoop X y config (left + 1) epoch prevLoss p
      = if epoch > 0 ∧ prevLoss - loss < config.EarlyStopDelta then
          some (p, [TrainEvent.earlyStop epoch (prevLoss - loss)])
        else
          (trainLoop X y config left (epoch + 1) loss q).bind (fun rest =>
            some (rest.1,
              (if Int.tmod (epoch : ℤ) config.LogEvery = 0 then
                [TrainEvent.logLoss epoch loss] else []) ++ rest.2)) := by
  rw [trainLoop]
  simp only [hpred, hloss, Option.bind_eq_bind, Option.some_bind]
  split
  · rfl
  · simp only [hq, Option.some_bind, if_neg hL]

/-- With consistent dimensions every step of an epoch succeeds, and the update keeps
the number of weights. -/
theorem epoch_total (lr : ℚ) (X : List (List ℚ)) (y : List ℚ) (p : Perceptron)
    (hy : y.length = X.length) (hrow : ∀ row ∈ X, row.length = p.Weights.length) :
    ∃ predictions loss q, p.PredictBatch X = some predictions
      ∧ predictions.length = X.length
      ∧ CrossEntropy y predictions = some loss
      ∧ updateStep lr X y predictions p = some q
      ∧ q.Weights.length = p.Weights.length := by
  have hpred := PredictBatch_eq_map p X hrow
  have hlen : (X.map (fun x => Sigmoid (p.Bias +
      ∑ i ∈ Finset.range p.Weights.length, p.Weights.getD i 0 * x.getD i 0))).length
        = X.length := List.length_map _ _
  refine ⟨_, _, _, hpred, hlen, CrossEntropy_eq_sum y _ (by rw [hlen, hy]),
    updateStep_eq lr X y _ p hlen hy hrow, ?_⟩
  simp

theorem afterUpdates_succ (lr : ℚ) (X : List (List ℚ)) (y : List ℚ) (p : Perceptron) (e : ℕ) :
    afterUpdates lr X y p (e + 1)
      = (afterUpdates lr X y p e).bind (epochUpdate lr X y) := rfl

theorem lossAfter_eq (lr : ℚ) (X : List (List ℚ)) (y : List ℚ) (p q : Perceptron) (e : ℕ)
    (predictions : List ℚ) (hq : afterUpdates lr X y p e = some q)
    (hpred : q.PredictBatch X = some predictions) :
    lossAfter lr X y p e = CrossEntropy y predictions := by
  simp only [lossAfter, hq, hpred, Option.bind_eq_bind, Option.some_bind]

/-- The epoch loop entered at epoch `epoch` with `left` iterations to go, on the model
`q0` reached after `epoch` updates: it stops after `m` updates in all, where `m` is the
first epoch index from `epoch` on (and at least 1) at which the loss fell by less than
`EarlyStopDelta`, or `epoch + left` when there is none. -/
theorem trainLoop_spec (X : List (List ℚ)) (y : List ℚ) (config : TrainingConfig)
    (p : Perceptron) (hy : y.length = X.length)
    (hrow : ∀ row ∈ X, row.length = p.Weights.length) (hL : config.LogEvery ≠ 0) :
    ∀ (left epoch : ℕ) (prevLoss : ℚ) (q0 : Perceptron),
      afterUpdates config.LearningRate X y p epoch = some q0 →
      q0.Weights.length = p.Weights.length →
      (1 ≤ epoch → lossAfter config.LearningRate X y p (epoch - 1) = some prevLoss) →
      ∃ (m : ℕ) (q : Perceptron) (events : List TrainEvent),
        trainLoop X y config left epoch prevLoss q0 = some (q, events)
        ∧ afterUpdates config.LearningRate X y p m = some q
        ∧ epoch ≤ m ∧ m ≤ epoch + left
        ∧ (0 < left → 1 ≤ m)
        ∧ (∀ e, 1 ≤ e → epoch ≤ e → e < m → ∃ a b,
            lossAfter config.LearningRate X y p (e - 1) = some a
            ∧ lossAfter config.LearningRate X y p e = some b
            ∧ ¬ (a - b < config.EarlyStopDelta))
        ∧ (m < epoch + left → ∃ a b,
            lossAfter config.LearningRate X y p (m - 1) = some a
            ∧ lossAfter config.LearningRate X y p m = some b
            ∧ a - b < config.EarlyStopDelta
            ∧ TrainEvent.earlyStop m (a - b) ∈ events) := by
  intro left
  induction left with
  | zero =>
    intro epoch prevLoss q0 hq0 _ _
    refine ⟨epoch, q0, [], rfl, hq0, le_rfl, le_rfl, ?_, ?_, ?_⟩
    · intro h; omega
    · intro e _ h1 h2; omega
    · intro h; omega
  | succ left ih =>
    intro epoch prevLoss q0 hq0 hlen hprev
    have hrow0 : ∀ row ∈ X, row.length = q0.Weights.length := by
      intro row hr; rw [hlen]; exact hrow row hr
    obtain ⟨predictions, loss, q1, hpred, _, hloss, hq1, hlen1⟩ :=
      epoch_total config.LearningRate X y q0 hy hrow0
    have hLe : lossAfter config.LearningRate X y p epoch = some loss := by
      rw [lossAfter_eq _ X y p q0 epoch predictions hq0 hpred, hloss]
    rw [trainLoop_succ_eq X y config left epoch prevLoss q0 q1 predictions loss hpred hloss hq1 hL]
    by_cases hstop : epoch > 0 ∧ prevLoss - loss < config.EarlyStopDelta
    · rw [if_pos hstop]
      refine ⟨epoch, q0, _, rfl, hq0, le_rfl, by omega, ?_, ?_, ?_⟩
      · intro _; exact hstop.1
      · intro e _ h1 h2; omega
      · intro _
        exact ⟨prevLoss, loss, hprev hstop.1, hLe, hstop.2, List.mem_singleton.mpr rfl⟩
    · rw [if_neg hstop]
      have hq1' : afterUpdates config.LearningRate X y p (epoch + 1) = some q1 := by
        rw [afterUpdates_succ, hq0]
        simp only [Option.some_bind, epochUpdate, hpred, Option.bind_eq_bind, hq1]
      obtain ⟨m, q, events, hrun, hm, hge, hle, _, hno, hhalt⟩ :=
        ih (epoch + 1) loss q1 hq1' (by rw [hlen1, hlen]) (fun _ => by simpa using hLe)
      refine ⟨m, q, _, by rw [hrun]; rfl, hm, by omega, by omega, ?_, ?_, ?_⟩
      · intro _; omega
      · intro e he1 hee hem
        by_cases heq : e = epoch
        · subst heq
          refine ⟨prevLoss, loss, hprev he1, hLe, ?_⟩
          intro hlt
          exact hstop ⟨he1, hlt⟩
        · exact hno e he1 (by omega) hem
      · intro hlt
        obtain ⟨a, b, ha, hb, hab, hmem⟩ := hhalt (by omega)
        exact ⟨a, b, ha, hb, hab, List.mem_append_right _ hmem⟩

/-- C1: reading `float64` as exact arithmetic, for every perceptron with `F` weights and
bias `b`, every dataset `X` (`N ≥ 1` rows, each of length `F`) with labels `y` of length
`N`, and every config with `Epochs = 1` and `LogEvery ≥ 1`, `Train` leaves the model
with `weight_j = w_j - LearningRate * (1/N) * Σ_i (pred_i - y_i) * X[i][j]` for every `j`
and `bias = b - LearningRate * (1/N) * Σ_i (pred_i - y_i)`, where
`pred = PredictBatch(X)` is evaluated once, on the weights and bias held before the
update. -/
theorem C1_single_epoch_update (p : Perceptron) (X : List (List ℚ)) (y : List ℚ)
    (config : TrainingConfig) (_hN : 1 ≤ X.length)
    (hrow : ∀ row ∈ X, row.length = p.Weights.length) (hy : y.length = X.length)
    (hE : config.Epochs = 1) (hL : 1 ≤ config.LogEvery) :
    ∃ (pred : List ℚ) (q : Perceptron) (events : List TrainEvent),
      p.PredictBatch X = some pred
      ∧ p.Train X y (some config) = some (q, events)
      ∧ q.Weights.length = p.Weights.length
      ∧ (∀ j, j < p.Weights.length →
          q.Weights.getD j 0 = p.Weights.getD j 0
            - config.LearningRate * (1 / (X.length : ℚ))
              * ∑ i ∈ Finset.range X.length,
                  (pred.getD i 0 - y.getD i 0) * (X.getD i []).getD j 0)
      ∧ q.Bias = p.Bias
          - config.LearningRate * (1 / (X.length : ℚ))
            * ∑ i ∈ Finset.range X.length, (pred.getD i 0 - y.getD i 0) := by
  have hpred := PredictBatch_eq_map p X hrow
  have hplen : (X.map (fun x => Sigmoid (p.Bias +
      ∑ i ∈ Finset.range p.Weights.length, p.Weights.getD i 0 * x.getD i 0))).length
        = X.length := List.length_map _ _
  have hloss := CrossEntropy_eq_sum y _ (by rw [hplen, hy])
  have hq := updateStep_eq config.LearningRate X y _ p hplen hy hrow
  have hL0 : config.LogEvery ≠ 0 := by omega
  have hrun := trainLoop_succ_eq X y config 0 0 0 p _ _ _ hpred hloss hq hL0
  rw [if_neg (by simp)] at hrun
  refine ⟨_, ?q, ?ev, hpred, ?train, ?len, ?weights, ?bias⟩
  case train =>
    unfold Perceptron.Train
    simp only [Option.getD_some, hE]
    exact hrun
  case len => simp
  case weights =>
    intro j hj
    simp only [List.getD_eq_getElem?_getD, List.getElem?_map, List.getElem?_range hj,
      Option.map_some', Option.getD_some]
    ring
  case bias =>
    simp only
    ring

/-- C1 at the model with weight `[0]` and bias `0`, the dataset `X = [[1]]`, `y = [1]`,
learning rate `1/2`, one epoch, `LogEvery = 1`. -/
theorem C1_single_epoch_update_witness :
    ∃ (pred : List ℚ) (q : Perceptron) (events : List TrainEvent),
      (Perceptron.mk [0] 0).PredictBatch [[1]] = some pred
      ∧ (Perceptron.mk [0] 0).Train [[1]] [1] (some (TrainingConfig.mk (1 / 2) 1 1 0))
          = some (q, events)
      ∧ q.Weights.length = (Perceptron.mk [0] 0).Weights.length
      ∧ (∀ j, j < (Perceptron.mk [0] 0).Weights.length →
          q.Weights.getD j 0 = (Perceptron.mk [0] 0).Weights.getD j 0
            - (TrainingConfig.mk (1 / 2) 1 1 0).LearningRate
                * (1 / (([[1]] : List (List ℚ)).length : ℚ))
              * ∑ i ∈ Finset.range ([[1]] : List (List ℚ)).length,
                  (pred.getD i 0 - ([1] : List ℚ).getD i 0)
                    * (([[1]] : List (List ℚ)).getD i []).getD j 0)
      ∧ q.Bias = (Perceptron.mk [0] 0).Bias
          - (TrainingConfig.mk (1 / 2) 1 1 0).LearningRate
              * (1 / (([[1]] : List (List ℚ)).length : ℚ))
            * ∑ i ∈ Finset.range ([[1]] : List (List ℚ)).length,
                (pred.getD i 0 - ([1] : List ℚ).getD i 0) :=
  C1_single_epoch_update (Perceptron.mk [0] 0) [[1]] [1] (TrainingConfig.mk (1 / 2) 1 1 0)
    (by decide) (by decide) rfl rfl (by decide)

/-- C2 (amended): reading `float64` as exact arithmetic, for every model, every
dimensionally consistent dataset with `N ≥ 1` samples, and every config with
`Epochs ≥ 1` and `LogEvery ≥ 1`, let `L_e` be `CrossEntropy(y, PredictBatch(X))` of the
model after `e` gradient updates. `Train` returns the model after exactly `m` updates,
where `m` is the least `e` with `1 ≤ e < Epochs` and `L_(e-1) - L_e < EarlyStopDelta`,
or `m = Epochs` when no such `e` exists. Epoch 0 always updates (`1 ≤ m`), the halting
epoch applies no update and its index is reported, and with `EarlyStopDelta ≥ 0` a loss
increase halts training; with a negative `EarlyStopDelta` it need not. -/
theorem C2_early_stop_epoch_count (p : Perceptron) (X : List (List ℚ)) (y : List ℚ)
    (config : TrainingConfig) (_hN : 1 ≤ X.length)
    (hrow : ∀ row ∈ X, row.length = p.Weights.length) (hy : y.length = X.length)
    (hE : 1 ≤ config.Epochs) (hL : 1 ≤ config.LogEvery) :
    ∃ (m : ℕ) (q : Perceptron) (events : List TrainEvent),
      p.Train X y (some config) = some (q, events)
      ∧ afterUpdates config.LearningRate X y p m = some q
      ∧ 1 ≤ m ∧ (m : ℤ) ≤ config.Epochs
      ∧ (∀ e, 1 ≤ e → e < m → ∃ a b,
          lossAfter config.LearningRate X y p (e - 1) = some a
          ∧ lossAfter config.LearningRate X y p e = some b
          ∧ ¬ (a - b < config.EarlyStopDelta))
      ∧ ((m : ℤ) < config.Epochs → ∃ a b,
          lossAfter config.LearningRate X y p (m - 1) = some a
          ∧ lossAfter config.LearningRate X y p m = some b
          ∧ a - b < config.EarlyStopDelta
          ∧ TrainEvent.earlyStop m (a - b) ∈ events)
      ∧ (0 ≤ config.EarlyStopDelta → ∀ e : ℕ, 1 ≤ e → (e : ℤ) < config.Epochs →
          (∃ a b, lossAfter config.LearningRate X y p (e - 1) = some a
            ∧ lossAfter config.LearningRate X y p e = some b ∧ a < b) → m ≤ e) := by
  have hL0 : config.LogEvery ≠ 0 := by omega
  obtain ⟨m, q, events, hrun, hm, _, hle, hpos, hno, hhalt⟩ :=
    trainLoop_spec X y config p hy hrow hL0 config.Epochs.toNat 0 0 p rfl rfl
      (fun h => absurd h (by decide))
  have htoNat : ((config.Epochs.toNat : ℕ) : ℤ) = config.Epochs := Int.toNat_of_nonneg (by omega)
  refine ⟨m, q, events, hrun, hm, hpos (by omega), by omega, ?_, ?_, ?_⟩
  · intro e he1 hem
    exact hno e he1 (Nat.zero_le e) hem
  · intro hlt
    exact hhalt (by omega)
  · intro hδ e he1 _ hinc
    by_contra hcon
    push_neg at hcon
    obtain ⟨a, b, ha, hb, hab⟩ := hinc
    obtain ⟨a', b', ha', hb', hnot⟩ := hno e he1 (Nat.zero_le e) hcon
    rw [ha] at ha'
    rw [hb] at hb'
    cases ha'
    cases hb'
    apply hnot
    linarith

/-! ### A run on which the early stop fires

The model with weight `[0]` and bias `0` on the dataset `X = [[1]]`, `y = [1]`, with
learning rate `1/2`. -/

/-- The value of `Log` on `[0.5, 0.8)`: no doubling is needed, `k = 0`. -/
theorem Log_of_mid (x : ℚ) (hlo : 0.5 ≤ x) (hhi : x < 0.8) :
    Log x = ((0 : ℤ) : ℚ) * 0.6931471805599453
      + logSeriesLoop (x - 1.0) 29 2.0 (x - 1.0) ((x - 1.0) * (x - 1.0)) (-1.0) := by
  have h05 : (0.5 : ℚ) = 1 / 2 := by norm_num
  have h08 : (0.8 : ℚ) = 4 / 5 := by norm_num
  rw [h05] at hlo
  rw [h08] at hhi
  rw [Log, if_neg (by norm_num; linarith), if_neg (by norm_num; linarith),
    if_neg (by norm_num; intro h; linarith)]
  simp only [logReduce]
  rw [if_pos (by norm_num; linarith), logDouble, dif_neg (by norm_num; intro _; linarith)]

theorem run_afterUpdates_zero :
    afterUpdates (1 / 2) [[1]] [1] (Perceptron.mk [0] 0) 0 = some (Perceptron.mk [0] 0) := rfl

theorem run_PredictBatch_zero : (Perceptron.mk [0] 0).PredictBatch [[1]] = some [1 / 2] := by
  rw [PredictBatch_eq_map _ _ (by decide)]
  simp [Sigmoid_zero]

theorem run_lossAfter_zero :
    lossAfter (1 / 2) [[1]] [1] (Perceptron.mk [0] 0) 0 = some (-Log (1 / 2)) := by
  rw [lossAfter_eq _ _ _ _ _ 0 _ run_afterUpdates_zero run_PredictBatch_zero,
    CrossEntropy_eq_sum [1] [1 / 2] rfl]
  have hc : clampPrediction (2⁻¹) = 2⁻¹ := by rw [clampPrediction_eq]; norm_num
  simp [hc]

theorem run_afterUpdates_one :
    afterUpdates (1 / 2) [[1]] [1] (Perceptron.mk [0] 0) 1
      = some (Perceptron.mk [1 / 4] (1 / 4)) := by
  rw [afterUpdates_succ, run_afterUpdates_zero]
  simp only [Option.some_bind, epochUpdate, run_PredictBatch_zero, Option.bind_eq_bind]
  rw [updateStep_eq _ _ _ _ _ rfl rfl (by decide)]
  simp [List.range_succ]
  norm_num

theorem run_PredictBatch_one :
    (Perceptron.mk [1 / 4] (1 / 4)).PredictBatch [[1]] = some [Sigmoid (1 / 2)] := by
  rw [PredictBatch_eq_map _ _ (by decide)]
  simp
  norm_num

theorem run_lossAfter_one :
    lossAfter (1 / 2) [[1]] [1] (Perceptron.mk [0] 0) 1
      = some (-Log (clampPrediction (Sigmoid (1 / 2)))) := by
  rw [lossAfter_eq _ _ _ _ _ 1 _ run_afterUpdates_one run_PredictBatch_one,
    CrossEntropy_eq_sum [1] [Sigmoid (1 / 2)] rfl]
  simp

/-- The loss falls by less than 1 (by about `0.22`) over the first update. -/
theorem run_loss_drop_lt_one :
    -Log (1 / 2) - -Log (clampPrediction (Sigmoid (1 / 2))) < 1 := by
  rw [Sigmoid_nonneg (by norm_num) (by norm_num), ExpTaylor_series (by norm_num) (by norm_num)]
  have hc : clampPrediction
      (expLoop (1 / 2) 24 1.0 1.0 1.0 / (expLoop (1 / 2) 24 1.0 1.0 1.0 + 1.0))
      = expLoop (1 / 2) 24 1.0 1.0 1.0 / (expLoop (1 / 2) 24 1.0 1.0 1.0 + 1.0) := by
    decide!
  rw [hc, Log_of_mid _ (by decide!) (by decide!), Log_of_mid _ (by decide!) (by decide!)]
  decide!

/-- C2 at the model with weight `[0]` and bias `0`, the dataset `X = [[1]]`, `y = [1]`,
learning rate `1/2`, three epochs, `LogEvery = 1`, `EarlyStopDelta = 1`: the loss falls
by less than 1 over the first update, so training halts at epoch 1 with the parameters
of epoch 0, `[1/4]` and `1/4`, and reports the index 1. -/
theorem C2_early_stop_epoch_count_witness :
    ∃ (q : Perceptron) (events : List TrainEvent) (d : ℚ),
      (Perceptron.mk [0] 0).Train [[1]] [1] (some (TrainingConfig.mk (1 / 2) 3 1 1))
        = some (q, events)
      ∧ afterUpdates (1 / 2) [[1]] [1] (Perceptron.mk [0] 0) 1 = some q
      ∧ q = Perceptron.mk [1 / 4] (1 / 4)
      ∧ d < 1 ∧ TrainEvent.earlyStop 1 d ∈ events := by
  obtain ⟨m, q, events, hrun, hm, _, _, hno, hhalt, _⟩ :=
    C2_early_stop_epoch_count (Perceptron.mk [0] 0) [[1]] [1]
      (TrainingConfig.mk (1 / 2) 3 1 1) (by decide) (by decide) rfl (by decide) (by decide)
  have hm1 : m = 1 := by
    by_contra hne
    obtain ⟨a, b, ha, hb, hnot⟩ := hno 1 le_rfl (by omega)
    have ha' : lossAfter (1 / 2) [[1]] [1] (Perceptron.mk [0] 0) 0 = some a := ha
    have hb' : lossAfter (1 / 2) [[1]] [1] (Perceptron.mk [0] 0) 1 = some b := hb
    rw [run_lossAfter_zero] at ha'
    rw [run_lossAfter_one] at hb'
    cases ha'
    cases hb'
    exact hnot run_loss_drop_lt_one
  subst hm1
  obtain ⟨a, b, _, _, hab, hmem⟩ := hhalt (by decide)
  have hm' : afterUpdates (1 / 2) [[1]] [1] (Perceptron.mk [0] 0) 1 = some q := hm
  have hq : q = Perceptron.mk [1 / 4] (1 / 4) := by
    rw [run_afterUpdates_one] at hm'
    exact (Option.some.inj hm').symm
  exact ⟨q, events, a - b, hrun, hm', hq, hab, hmem⟩

/-! ## `ExpTaylor` on negative arguments -/

/-- On `[-20, 0)` the series loop of `ExpTaylor` leaves at its first test: the first
term `x` is negative, hence below `1e-15 * (1 + x)`, and the result is `1 + x`. -/
theorem ExpTaylor_of_neg {x : ℚ} (hlo : -20 ≤ x) (hneg : x < 0) : ExpTaylor x = 1 + x := by
  rw [ExpTaylor_series hlo (by linarith), expLoop_succ, if_pos]
  · norm_num
  · norm_num
    linarith

/-- C7 (the code at the failing input `x = -0.5`): `ExpTaylor(-0.5)` is `0.5`, the
partial sum `S_1`, because the loop stops after the first term; the series with the
cutoff taken on the magnitude of the term stops at `n = 15` and gives
`25989762158177189 / 42849873690624000 ≈ 0.60653`. -/
theorem C7_exp_taylor_stops_at_first_negative_term :
    ExpTaylor (-0.5) = 0.5
    ∧ ExpTaylor (-0.5) = taylorSum (-0.5) 1
    ∧ taylorCutoff (-0.5) = 15
    ∧ ExpTaylorSpec (-0.5) = 25989762158177189 / 42849873690624000
    ∧ ExpTaylor (-0.5) ≠ ExpTaylorSpec (-0.5) := by
  have h1 : ExpTaylor (-0.5) = 0.5 := by
    rw [ExpTaylor_of_neg (by norm_num) (by norm_num)]; norm_num
  have h2 : taylorSum (-0.5) 1 = 0.5 := by decide!
  have h3 : taylorCutoff (-0.5) = 15 := by with_unfolding_all decide
  have h4 : ExpTaylorSpec (-0.5) = 25989762158177189 / 42849873690624000 := by decide!
  refine ⟨h1, by rw [h1, h2], h3, h4, ?_⟩
  rw [h1, h4]
  norm_num

/-! ## Range reduction of `Log` by halving -/

theorem logHalve_eq (n : ℕ) :
    ∀ (y : ℚ) (k : ℤ), 1 ≤ y / 2 ^ n → y / 2 ^ n < 2 → logHalve y k = (y / 2 ^ n, k + n) := by
  induction n with
  | zero =>
    intro y k _ hhi
    rw [logHalve, dif_neg (by norm_num at hhi ⊢; exact hhi)]
    simp
  | succ n ih =>
    intro y k hlo hhi
    have hpow : (0 : ℚ) < 2 ^ n := by positivity
    have hy : y / 2 ^ (n + 1) = y / 2.0 / 2 ^ n := by
      have h20 : (2.0 : ℚ) = 2 := by norm_num
      rw [pow_succ, h20, div_div]
      congr 1
      ring
    have h2 : (2 : ℚ) ≤ y := by
      rw [le_div_iff₀ (by positivity)] at hlo
      have : (1 : ℚ) ≤ 2 ^ n := one_le_pow₀ (by norm_num)
      rw [pow_succ] at hlo
      nlinarith
    rw [logHalve, dif_pos (by norm_num; exact h2), ih (y / 2.0) (k + 1) (by rw [← hy]; exact hlo)
      (by rw [← hy]; exact hhi), ← hy]
    congr 1
    push_cast
    ring

/-- The value of `Log` on an argument above `1.2` that `n` halvings bring into `[1, 2)`. -/
theorem Log_of_halvings (x : ℚ) (n : ℕ) (h : 1.2 < x) (hlo : 1 ≤ x / 2 ^ n)
    (hhi : x / 2 ^ n < 2) :
    Log x = (n : ℚ) * 0.6931471805599453
      + logSeriesLoop (x / 2 ^ n - 1.0) 29 2.0 (x / 2 ^ n - 1.0)
          ((x / 2 ^ n - 1.0) * (x / 2 ^ n - 1.0)) (-1.0) := by
  have h12 : (1.2 : ℚ) = 6 / 5 := by norm_num
  rw [h12] at h
  rw [Log, if_neg (by norm_num; linarith), if_neg (by norm_num; linarith),
    if_neg (by norm_num; intro _; linarith)]
  simp only [logReduce]
  rw [if_neg (by norm_num; linarith), logHalve_eq n x 0 hlo hhi]
  simp

theorem Log_one : Log 1 = 0 := by
  rw [Log, if_neg (by norm_num), if_pos (by norm_num)]
  norm_num

/-! ## `Log (ExpTaylor x)` on the grid `0, 1, ..., 15` -/

theorem logExp_at_0 : |Log (ExpTaylor 0) - 0| ≤ 1e-6 := by
  rw [ExpTaylor_zero, Log_one]
  norm_num

theorem logExp_at_1 : |Log (ExpTaylor 1) - 1| ≤ 1e-6 := by
  rw [ExpTaylor_series (by norm_num) (by norm_num)]
  rw [Log_of_halvings _ 1 (by decide!) (by decide!) (by decide!)]
  decide!

theorem logExp_at_2 : |Log (ExpTaylor 2) - 2| ≤ 1e-2 := by
  rw [ExpTaylor_series (by norm_num) (by norm_num)]
  rw [Log_of_halvings _ 2 (by decide!) (by decide!) (by decide!)]
  decide!

theorem logExp_at_3 : |Log (ExpTaylor 3) - 3| ≤ 1e-6 := by
  rw [ExpTaylor_series (by norm_num) (by norm_num)]
  rw [Log_of_halvings _ 4 (by decide!) (by decide!) (by decide!)]
  decide!

theorem logExp_at_4 : |Log (ExpTaylor 4) - 4| ≤ 1e-6 := by
  rw [ExpTaylor_series (by norm_num) (by norm_num)]
  rw [Log_of_halvings _ 5 (by decide!) (by decide!) (by decide!)]
  decide!

theorem logExp_at_5 : |Log (ExpTaylor 5) - 5| ≤ 1e-6 := by
  rw [ExpTaylor_series (by norm_num) (by norm_num)]
  rw [Log_of_halvings _ 7 (by decide!) (by decide!) (by decide!)]
  decide!

theorem logExp_at_6 : |Log (ExpTaylor 6) - 6| ≤ 1e-6 := by
  rw [ExpTaylor_half (by norm_num) (by norm_num),
    ExpTaylor_series (by norm_num) (by norm_num)]
  rw [Log_of_halvings _ 8 (by decide!) (by decide!) (by decide!)]
  decide!

theorem logExp_at_7 : |Log (ExpTaylor 7) - 7| ≤ 1e-6 := by
  rw [ExpTaylor_half (by norm_num) (by norm_num),
    ExpTaylor_series (by norm_num) (by norm_num)]
  rw [Log_of_halvings _ 10 (by decide!) (by decide!) (by decide!)]
  decide!

theorem logExp_at_8 : |Log (ExpTaylor 8) - 8| ≤ 1e-6 := by
  rw [ExpTaylor_half (by norm_num) (by norm_num),
    ExpTaylor_series (by norm_num) (by norm_num)]
  rw [Log_of_halvings _ 11 (by decide!) (by decide!) (by decide!)]
  decide!

theorem logExp_at_9 : |Log (ExpTaylor 9) - 9| ≤ 1e-2 := by
  rw [ExpTaylor_half (by norm_num) (by norm_num),
    ExpTaylor_series (by norm_num) (by norm_num)]
  rw [Log_of_halvings _ 12 (by decide!) (by decide!) (by decide!)]
  decide!

theorem logExp_at_10 : |Log (ExpTaylor 10) - 10| ≤ 1e-6 := by
  rw [ExpTaylor_half (by norm_num) (by norm_num),
    ExpTaylor_series (by norm_num) (by norm_num)]
  rw [Log_of_halvings _ 14 (by decide!) (by decide!) (by decide!)]
  decide!

theorem logExp_at_11 : |Log (ExpTaylor 11) - 11| ≤ 1e-2 := by
  rw [ExpTaylor_half (by norm_num) (by norm_num),
    ExpTaylor_half (by norm_num) (by norm_num), ExpTaylor_series (by norm_num) (by norm_num)]
  rw [Log_of_halvings _ 15 (by decide!) (by decide!) (by decide!)]
  decide!

theorem logExp_at_12 : |Log (ExpTaylor 12) - 12| ≤ 1e-6 := by
  rw [ExpTaylor_half (by norm_num) (by norm_num),
    ExpTaylor_half (by norm_num) (by norm_num), ExpTaylor_series (by norm_num) (by norm_num)]
  rw [Log_of_halvings _ 17 (by decide!) (by decide!) (by decide!)]
  decide!

theorem logExp_at_13 : |Log (ExpTaylor 13) - 13| ≤ 1e-6 := by
  rw [ExpTaylor_half (by norm_num) (by norm_num),
    ExpTaylor_half (by norm_num) (by norm_num), ExpTaylor_series (by norm_num) (by norm_num)]
  rw [Log_of_halvings _ 18 (by decide!) (by decide!) (by decide!)]
  decide!

theorem logExp_at_14 : |Log (ExpTaylor 14) - 14| ≤ 1e-6 := by
  rw [ExpTaylor_half (by norm_num) (by norm_num),
    ExpTaylor_half (by norm_num) (by norm_num), ExpTaylor_series (by norm_num) (by norm_num)]
  rw [Log_of_halvings _ 20 (by decide!) (by decide!) (by decide!)]
  decide!

theorem logExp_at_15 : |Log (ExpTaylor 15) - 15| ≤ 1e-6 := by
  rw [ExpTaylor_half (by norm_num) (by norm_num),
    ExpTaylor_half (by norm_num) (by norm_num), ExpTaylor_series (by norm_num) (by norm_num)]
  rw [Log_of_halvings _ 21 (by decide!) (by decide!) (by decide!)]
  decide!

/-- C8 (counterexample): at `x = 2` the round trip is off by more than `1e-6`
(about `1.04e-4`): two halvings leave `y ≈ 1.847`, and the series in `t = y - 1`
truncated at `n = 30` is not that accurate. -/
theorem C8_log_exp_inverse_fails_at_two : ¬ (|Log (ExpTaylor 2) - 2| ≤ 1e-6) := by
  rw [ExpTaylor_series (by norm_num) (by norm_num)]
  rw [Log_of_halvings _ 2 (by decide!) (by decide!) (by decide!)]
  decide!

/-- C8 (amended): for every integer `x` with `0 ≤ x ≤ 15`,
`|Log(ExpTaylor(x)) - x| ≤ 1e-2`, and the bound `1e-6` holds for each of these `x`
other than `2`, `9` and `11`. -/
theorem C8_log_exp_inverse_nonneg_grid (x : ℤ) (h0 : 0 ≤ x) (h15 : x ≤ 15) :
    |Log (ExpTaylor (x : ℚ)) - (x : ℚ)| ≤ 1e-2
    ∧ (x ≠ 2 → x ≠ 9 → x ≠ 11 → |Log (ExpTaylor (x : ℚ)) - (x : ℚ)| ≤ 1e-6) := by
  have hb : (1e-6 : ℚ) ≤ 1e-2 := by norm_num
  interval_cases x
  · simp only [Int.cast_zero]
    exact ⟨le_trans logExp_at_0 hb, fun _ _ _ => logExp_at_0⟩
  · simp only [Int.cast_one]
    exact ⟨le_trans logExp_at_1 hb, fun _ _ _ => logExp_at_1⟩
  · simp only [Int.cast_ofNat]
    exact ⟨logExp_at_2, fun h2 h9 h11 => by omega⟩
  · simp only [Int.cast_ofNat]
    exact ⟨le_trans logExp_at_3 hb, fun _ _ _ => logExp_at_3⟩
  · simp only [Int.cast_ofNat]
    exact ⟨le_trans logExp_at_4 hb, fun _ _ _ => logExp_at_4⟩
  · simp only [Int.cast_ofNat]
    exact ⟨le_trans logExp_at_5 hb, fun _ _ _ => logExp_at_5⟩
  · simp only [Int.cast_ofNat]
    exact ⟨le_trans logExp_at_6 hb, fun _ _ _ => logExp_at_6⟩
  · simp only [Int.cast_ofNat]
    exact ⟨le_trans logExp_at_7 hb, fun _ _ _ => logExp_at_7⟩
  · simp only [Int.cast_ofNat]
    exact ⟨le_trans logExp_at_8 hb, fun _ _ _ => logExp_at_8⟩
  · simp only [Int.cast_ofNat]
    exact ⟨logExp_at_9, fun h2 h9 h11 => by omega⟩
  · simp only [Int.cast_ofNat]
    exact ⟨le_trans logExp_at_10 hb, fun _ _ _ => logExp_at_10⟩
  · simp only [Int.cast_ofNat]
    exact ⟨logExp_at_11, fun h2 h9 h11 => by omega⟩
  · simp only [Int.cast_ofNat]
    exact ⟨le_trans logExp_at_12 hb, fun _ _ _ => logExp_at_12⟩
  · simp only [Int.cast_ofNat]
    exact ⟨le_trans logExp_at_13 hb, fun _ _ _ => logExp_at_13⟩
  · simp only [Int.cast_ofNat]
    exact ⟨le_trans logExp_at_14 hb, fun _ _ _ => logExp_at_14⟩
  · simp only [Int.cast_ofNat]
    exact ⟨le_trans logExp_at_15 hb, fun _ _ _ => logExp_at_15⟩

/-- C8 (amended) at `x = 15`. -/
theorem C8_log_exp_inverse_nonneg_grid_witness :
    |Log (ExpTaylor ((15 : ℤ) : ℚ)) - ((15 : ℤ) : ℚ)| ≤ 1e-6 :=
  (C8_log_exp_inverse_nonneg_grid 15 (by decide) (by decide)).2 (by decide) (by decide)
    (by decide)

/-! ## Monotonicity of `ExpTaylor` on `[0, 20]` and of `Sigmoid` on `[-20, ∞)` -/

/-- Two runs of the series loop, on `x ≤ x'`, in step: the run on `x` has the smaller
term, the smaller sum and the smaller ratio of term to sum, so it stops no later than
the run on `x'` and returns no more. -/
theorem expLoop_mono {x x' : ℚ} (hx : 0 ≤ x) (hxx : x ≤ x') :
    ∀ (k : ℕ) (result result' term term' n : ℚ), 0 < n → 0 ≤ term → 0 < result →
      term ≤ term' → result ≤ result' → term * result' ≤ term' * result →
      expLoop x k result term n ≤ expLoop x' k result' term' n := by
  intro k
  induction k with
  | zero => intro result result' term term' n _ _ _ _ hr _; exact hr
  | succ k ih =>
    intro result result' term term' n hn ht hres htt hrr hinv
    have hx' : 0 ≤ x' := le_trans hx hxx
    have ht' : 0 ≤ term' := le_trans ht htt
    have hres' : 0 < result' := lt_of_lt_of_le hres hrr
    have hxn : 0 ≤ x / n := div_nonneg hx hn.le
    have hxn' : x / n ≤ x' / n := div_le_div_of_nonneg_right hxx hn.le
    have hxn0' : 0 ≤ x' / n := le_trans hxn hxn'
    have ht1 : 0 ≤ term * (x / n) := mul_nonneg ht hxn
    have ht1' : 0 ≤ term' * (x' / n) := mul_nonneg ht' hxn0'
    have htt1 : term * (x / n) ≤ term' * (x' / n) := mul_le_mul htt hxn' hxn ht'
    have hr1 : 0 < result + term * (x / n) := by linarith
    have hr1' : 0 < result' + term' * (x' / n) := by linarith
    have hrr1 : result + term * (x / n) ≤ result' + term' * (x' / n) := by linarith
    have hcross : term * (x / n) * result' ≤ term' * (x' / n) * result := by
      have h1 : term * result' * (x / n) ≤ term' * result * (x / n) :=
        mul_le_mul_of_nonneg_right hinv hxn
      have h2 : term' * result * (x / n) ≤ term' * result * (x' / n) :=
        mul_le_mul_of_nonneg_left hxn' (mul_nonneg ht' hres.le)
      nlinarith
    have hinv1 : term * (x / n) * (result' + term' * (x' / n))
        ≤ term' * (x' / n) * (result + term * (x / n)) := by
      nlinarith
    have hn1 : (0 : ℚ) < n + 1.0 := by norm_num; linarith
    rw [expLoop_succ, expLoop_succ]
    by_cases hc : term * (x / n) < 1e-15 * (result + term * (x / n))
    · rw [if_pos hc]
      by_cases hc' : term' * (x' / n) < 1e-15 * (result' + term' * (x' / n))
      · rw [if_pos hc']; exact hrr1
      · rw [if_neg hc']
        exact le_trans hrr1 (expLoop_ge hx' k _ _ _ ht1' hn1)
    · rw [if_neg hc]
      by_cases hc' : term' * (x' / n) < 1e-15 * (result' + term' * (x' / n))
      · exfalso
        apply hc
        have h3 : term' * (x' / n) * (result + term * (x / n))
            < 1e-15 * (result' + term' * (x' / n)) * (result + term * (x / n)) :=
          mul_lt_mul_of_pos_right hc' hr1
        have h4 : term * (x / n) * (result' + term' * (x' / n))
            < 1e-15 * (result + term * (x / n)) * (result' + term' * (x' / n)) := by
          calc term * (x / n) * (result' + term' * (x' / n))
              ≤ term' * (x' / n) * (result + term * (x / n)) := hinv1
            _ < 1e-15 * (result' + term' * (x' / n)) * (result + term * (x / n)) := h3
            _ = 1e-15 * (result + term * (x / n)) * (result' + term' * (x' / n)) := by ring
        exact lt_of_mul_lt_mul_right h4 hr1'.le
      · rw [if_neg hc']
        exact ih _ _ _ _ _ hn1 ht1 hr1 htt1 hrr1 hinv1

theorem ExpTaylor_mono_five {a b : ℚ} (h0 : 0 ≤ a) (hab : a ≤ b) (h5 : b ≤ 5) :
    ExpTaylor a ≤ ExpTaylor b := by
  rw [ExpTaylor_series (by linarith) (by linarith), ExpTaylor_series (by linarith) h5]
  exact expLoop_mono h0 hab 24 _ _ _ _ _ (by norm_num) (by norm_num) (by norm_num) le_rfl le_rfl
    le_rfl

/-- Across the branch boundary at 5: the series at 5 is below the square of the series
at 2.5. -/
theorem ExpTaylor_five_le : ExpTaylor 5 ≤ ExpTaylor 2.5 * ExpTaylor 2.5 := by
  rw [ExpTaylor_series (by norm_num) (by norm_num),
    ExpTaylor_series (x := 2.5) (by norm_num) (by norm_num)]
  decide!

theorem ExpTaylor_mono_ten {a b : ℚ} (h0 : 0 ≤ a) (hab : a ≤ b) (h10 : b ≤ 10) :
    ExpTaylor a ≤ ExpTaylor b := by
  by_cases hb : b ≤ 5
  · exact ExpTaylor_mono_five h0 hab hb
  · push_neg at hb
    have hbhalf : ExpTaylor 2.5 ≤ ExpTaylor (b * 0.5) :=
      ExpTaylor_mono_five (by norm_num) (by norm_num; linarith) (by norm_num; linarith)
    have h25 : 1 ≤ ExpTaylor 2.5 := ExpTaylor_ge_one (by norm_num)
    rw [ExpTaylor_half hb (by linarith)]
    by_cases ha : a ≤ 5
    · have h1 : ExpTaylor a ≤ ExpTaylor 5 := ExpTaylor_mono_five h0 ha le_rfl
      have h2 := ExpTaylor_five_le
      nlinarith
    · push_neg at ha
      rw [ExpTaylor_half ha (by linarith)]
      have h1 : ExpTaylor (a * 0.5) ≤ ExpTaylor (b * 0.5) :=
        ExpTaylor_mono_five (by norm_num; linarith) (by norm_num; linarith)
          (by norm_num; linarith)
      have h2 : 1 ≤ ExpTaylor (a * 0.5) := ExpTaylor_ge_one (by norm_num; linarith)
      nlinarith

theorem ExpTaylor_mono_twenty {a b : ℚ} (h0 : 0 ≤ a) (hab : a ≤ b) (h20 : b ≤ 20) :
    ExpTaylor a ≤ ExpTaylor b := by
  by_cases hb : b ≤ 10
  · exact ExpTaylor_mono_ten h0 hab hb
  · push_neg at hb
    rw [ExpTaylor_half (by linarith) h20]
    have h5 : 1 ≤ ExpTaylor 5 := ExpTaylor_ge_one (by norm_num)
    by_cases ha : a ≤ 10
    · have h1 : ExpTaylor a ≤ ExpTaylor 10 := ExpTaylor_mono_ten h0 ha le_rfl
      have h2 : ExpTaylor 10 = ExpTaylor 5 * ExpTaylor 5 := by
        rw [ExpTaylor_half (by norm_num) (by norm_num)]
        norm_num
      have h3 : ExpTaylor 5 ≤ ExpTaylor (b * 0.5) :=
        ExpTaylor_mono_ten (by norm_num) (by norm_num; linarith) (by norm_num; linarith)
      nlinarith
    · push_neg at ha
      rw [ExpTaylor_half (by linarith) (by linarith)]
      have h1 : ExpTaylor (a * 0.5) ≤ ExpTaylor (b * 0.5) :=
        ExpTaylor_mono_ten (by norm_num; linarith) (by norm_num; linarith)
          (by norm_num; linarith)
      have h2 : 1 ≤ ExpTaylor (a * 0.5) := ExpTaylor_ge_one (by norm_num; linarith)
      nlinarith

theorem Sigmoid_mono_nonneg {a b : ℚ} (h0 : 0 ≤ a) (hab : a ≤ b) (h20 : b ≤ 20) :
    Sigmoid a ≤ Sigmoid b := by
  rw [Sigmoid_nonneg h0 (by linarith), Sigmoid_nonneg (by linarith) h20]
  have ha := ExpTaylor_ge_one h0
  have hb := ExpTaylor_ge_one (le_trans h0 hab)
  have hmono := ExpTaylor_mono_twenty h0 hab h20
  have h10 : (1.0 : ℚ) = 1 := by norm_num
  rw [h10, div_le_div_iff₀ (by linarith) (by linarith)]
  nlinarith

/-- Across the branch boundary at 20: the quotient at 20 is below the upper saturation
constant. -/
theorem Sigmoid_twenty_le : Sigmoid 20 ≤ 0.9999999979388464 := by
  rw [Sigmoid_nonneg (by norm_num) le_rfl, ExpTaylor_half (by norm_num) le_rfl,
    ExpTaylor_half (by norm_num) (by norm_num), ExpTaylor_series (by norm_num) (by norm_num)]
  decide!

/-- C6 (counterexample): `Sigmoid` is not monotone. On float64, `2.0` and its successor
`2.0000000000000004 = 2 + 2^-51` give `Sigmoid(2.0) = 0.8807970779778824` above
`Sigmoid(2.0000000000000004) = 0.8807970779778823` (rounding in the series), and across
the clamp `Sigmoid(-21) = 2.061153622438558e-9` is above
`Sigmoid(-20) = 2.0611535811454473e-9`. Read as exact arithmetic the second inversion
remains: `Sigmoid(-21) > Sigmoid(-20)`. -/
theorem C6_sigmoid_not_monotone :
    ((2 : ℚ) ≤ 2 + 1 / 2 ^ 51
      ∧ float64.round 2 = 2 ∧ float64.round (2 + 1 / 2 ^ 51) = 2 + 1 / 2 ^ 51
      ∧ float64.Sigmoid 5 2 = some (7933514784340426 / 2 ^ 53)
      ∧ float64.Sigmoid 5 (2 + 1 / 2 ^ 51) = some (7933514784340425 / 2 ^ 53))
    ∧ ((-21 : ℚ) ≤ -20
      ∧ float64.Sigmoid 5 (-21) = some (4983563664716391 / 2 ^ 81)
      ∧ float64.Sigmoid 5 (-20) = some (4983563564875776 / 2 ^ 81))
    ∧ ((-21 : ℚ) ≤ -20 ∧ ¬ (Sigmoid (-21) ≤ Sigmoid (-20))) := by
  refine ⟨⟨by norm_num, by decide!, by decide!, by decide!, by decide!⟩,
    ⟨by norm_num, by decide!, by decide!⟩, by norm_num, ?_⟩
  rw [Sigmoid_lo (by norm_num), Sigmoid_neg (by norm_num) (by norm_num),
    Sigmoid_nonneg (by norm_num) (by norm_num), ExpTaylor_half (by norm_num) (by norm_num),
    ExpTaylor_half (by norm_num) (by norm_num), ExpTaylor_series (by norm_num) (by norm_num)]
  decide!

/-- C6 (amended): reading `float64` as exact arithmetic, `Sigmoid` is monotone
non-decreasing on `z ≥ -20` and constant on `z < -20`: for every `z1 ≤ z2` with
`-20 ≤ z1` or `z2 < -20`, `Sigmoid(z1) ≤ Sigmoid(z2)`, including across the branch
boundaries at `z = 0, 5, 10` and `20`. On float64 itself rounding can invert the order
of neighbouring arguments, as the counterexample shows at `z = 2`. -/
theorem C6_sigmoid_monotone_from_minus_twenty (z1 z2 : ℚ) (h : z1 ≤ z2)
    (hdom : -20 ≤ z1 ∨ z2 < -20) : Sigmoid z1 ≤ Sigmoid z2 := by
  rcases hdom with hlo | hbelow
  · by_cases h2hi : 20 < z2
    · rw [Sigmoid_hi h2hi]
      by_cases h1hi : 20 < z1
      · rw [Sigmoid_hi h1hi]
      · push_neg at h1hi
        by_cases h1neg : z1 < 0
        · rw [Sigmoid_neg hlo h1neg]
          have hb := (Sigmoid_nonneg_bounds (z := -z1) (by linarith) (by linarith)).1
          norm_num at hb ⊢
          linarith
        · push_neg at h1neg
          exact le_trans (Sigmoid_mono_nonneg h1neg h1hi le_rfl) Sigmoid_twenty_le
    · push_neg at h2hi
      by_cases h2neg : z2 < 0
      · rw [Sigmoid_neg hlo (by linarith), Sigmoid_neg (by linarith) h2neg]
        have hm := Sigmoid_mono_nonneg (a := -z2) (b := -z1) (by linarith) (by linarith)
          (by linarith)
        linarith
      · push_neg at h2neg
        by_cases h1neg : z1 < 0
        · rw [Sigmoid_neg hlo h1neg]
          have hb1 := (Sigmoid_nonneg_bounds (z := -z1) (by linarith) (by linarith)).1
          have hb2 := (Sigmoid_nonneg_bounds h2neg h2hi).1
          norm_num at hb1 hb2 ⊢
          linarith
        · push_neg at h1neg
          exact Sigmoid_mono_nonneg h1neg h h2hi
  · rw [Sigmoid_lo (lt_of_le_of_lt h hbelow), Sigmoid_lo hbelow]

/-- C6 (amended) across the boundaries at 0, 5, 10 and 20: from `z1 = -20` to
`z2 = 21`. -/
theorem C6_sigmoid_monotone_from_minus_twenty_witness :
    Sigmoid (-20) ≤ Sigmoid 21 :=
  C6_sigmoid_monotone_from_minus_twenty (-20) 21 (by norm_num) (Or.inl le_rfl)

/-! ## `ExpTaylor` against the documented series on `[0, 5]` -/

theorem taylorTerm_succ (x : ℚ) (i : ℕ) :
    taylorTerm x (i + 1) = taylorTerm x i * (x / ((i : ℚ) + 1)) := by
  unfold taylorTerm
  rw [pow_succ, Nat.factorial_succ]
  have h1 : ((i : ℚ) + 1) ≠ 0 := by positivity
  have h2 : ((i.factorial : ℕ) : ℚ) ≠ 0 := by positivity
  push_cast
  field_simp
  left
  ring

theorem taylorSum_succ (x : ℚ) (i : ℕ) :
    taylorSum x (i + 1) = taylorSum x i + taylorTerm x (i + 1) := by
  unfold taylorSum
  rw [List.range_succ, List.map_append, List.sum_append]
  simp

theorem taylorTerm_nonneg {x : ℚ} (hx : 0 ≤ x) (i : ℕ) : 0 ≤ taylorTerm x i := by
  unfold taylorTerm
  positivity

/-- The loop entered after `i` iterations, with `k` to go, returns the partial sum at
the first index among `i + 1, ..., i + k` whose term is below `1e-15` times the sum,
or at `i + k`. -/
theorem expLoop_eq_taylorSum (x : ℚ) :
    ∀ (k i : ℕ),
      expLoop x k (taylorSum x i) (taylorTerm x i) ((i : ℚ) + 1)
        = taylorSum x (((List.range' (i + 1) k).find?
            (fun n => decide (taylorTerm x n < 1e-15 * taylorSum x n))).getD (i + k)) := by
  intro k
  induction k with
  | zero => intro i; rfl
  | succ k ih =>
    intro i
    have h10 : ((i : ℚ) + 1 + 1.0) = (((i + 1 : ℕ) : ℚ) + 1) := by push_cast; norm_num
    rw [expLoop_succ, ← taylorTerm_succ, ← taylorSum_succ, List.range'_succ, List.find?_cons, h10]
    by_cases hc : taylorTerm x (i + 1) < 1e-15 * taylorSum x (i + 1)
    · rw [if_pos hc]
      simp [hc]
    · rw [if_neg hc, ih (i + 1)]
      simp only [hc, decide_False]
      congr 2
      omega

theorem ExpTaylor_eq_spec_of_nonneg {x : ℚ} (h0 : 0 ≤ x) (h5 : x ≤ 5) :
    ExpTaylor x = ExpTaylorSpec x := by
  have hstart := expLoop_eq_taylorSum x 24 0
  have hT0 : taylorTerm x 0 = 1.0 := by simp [taylorTerm]; norm_num
  have hS0 : taylorSum x 0 = 1.0 := by
    simp [taylorSum, List.range_succ, hT0]
  have hn0 : (((0 : ℕ) : ℚ) + 1) = 1.0 := by norm_num
  rw [hS0, hT0, hn0] at hstart
  rw [ExpTaylor_series (by linarith) h5, hstart, ExpTaylorSpec, taylorCutoff]
  have hrange : (List.range 24).map (· + 1) = List.range' (0 + 1) 24 := by decide
  have habs : (fun n => decide (|taylorTerm x n| < 1e-15 * taylorSum x n))
      = (fun n => decide (taylorTerm x n < 1e-15 * taylorSum x n)) := by
    funext n
    rw [abs_of_nonneg (taylorTerm_nonneg h0 n)]
  rw [hrange, habs]

/-! ## `Log` on its first two branches -/

theorem Log_of_nonpos {x : ℚ} (h : x ≤ 0) : Log x = -1000.0 := by
  rw [Log, if_pos (by norm_num; exact h)]

/-- C14: `Log` never fails: it is a total function, for every `x ≤ 0`,
`Log(x) = -1000.0` (the sentinel), and `Log(1.0) = 0.0` exactly. -/
theorem C14_log_sentinel_and_one (x : ℚ) :
    (x ≤ 0 → Log x = -1000.0) ∧ Log 1.0 = 0.0 := by
  refine ⟨Log_of_nonpos, ?_⟩
  rw [Log, if_neg (by norm_num), if_pos rfl]

/-- C14 at `x = -3` and at `x = 0`. -/
theorem C14_log_sentinel_and_one_witness : Log (-3) = -1000.0 ∧ Log 0 = -1000.0 :=
  ⟨(C14_log_sentinel_and_one (-3)).1 (by norm_num), (C14_log_sentinel_and_one 0).1 le_rfl⟩

/-! ## The threshold `0.5` of `Sigmoid` -/

theorem ExpTaylor_gt_one_of_le_five {x : ℚ} (h0 : 0 < x) (h5 : x ≤ 5) : 1 < ExpTaylor x := by
  rw [ExpTaylor_series (by linarith) h5, expLoop_succ]
  have hterm : (1.0 : ℚ) * (x / 1.0) = x := by norm_num
  rw [hterm]
  split
  · norm_num; exact h0
  · have := expLoop_ge h0.le 23 (1.0 + x) x (1.0 + 1.0) h0.le (by norm_num)
    norm_num at this ⊢
    linarith

theorem ExpTaylor_gt_one_of_le_ten {x : ℚ} (h0 : 0 < x) (h10 : x ≤ 10) : 1 < ExpTaylor x := by
  by_cases h5 : x ≤ 5
  · exact ExpTaylor_gt_one_of_le_five h0 h5
  · push_neg at h5
    rw [ExpTaylor_half h5 (by linarith)]
    have h := ExpTaylor_gt_one_of_le_five (x := x * 0.5) (by norm_num; linarith)
      (by norm_num; linarith)
    nlinarith

/-- On positive arguments `ExpTaylor` is above 1. -/
theorem ExpTaylor_gt_one {x : ℚ} (h0 : 0 < x) : 1 < ExpTaylor x := by
  by_cases h20 : 20 < x
  · rw [ExpTaylor_hi h20]; norm_num
  · push_neg at h20
    by_cases h10 : x ≤ 10
    · exact ExpTaylor_gt_one_of_le_ten h0 h10
    · push_neg at h10
      rw [ExpTaylor_half (by linarith) h20]
      have h := ExpTaylor_gt_one_of_le_ten (x := x * 0.5) (by norm_num; linarith)
        (by norm_num; linarith)
      nlinarith

theorem Sigmoid_gt_half_of_pos {z : ℚ} (h0 : 0 < z) : 1 / 2 < Sigmoid z := by
  by_cases hhi : 20 < z
  · rw [Sigmoid_hi hhi]; norm_num
  · push_neg at hhi
    rw [Sigmoid_nonneg h0.le hhi]
    have h1 := ExpTaylor_gt_one h0
    have hpos : (0 : ℚ) < ExpTaylor z + 1.0 := by norm_num; linarith
    rw [lt_div_iff₀ hpos]
    norm_num
    linarith

theorem Sigmoid_lt_half_of_neg {z : ℚ} (h0 : z < 0) : Sigmoid z < 1 / 2 := by
  by_cases hlo : z < -20
  · rw [Sigmoid_lo hlo]; norm_num
  · push_neg at hlo
    rw [Sigmoid_neg hlo h0]
    have h := Sigmoid_gt_half_of_pos (z := -z) (by linarith)
    norm_num
    linarith

/-- C19: the decision boundary at threshold 0.5 is exactly the sign of the logit: for
every `z`, `Sigmoid(z) > 0.5` if and only if `z > 0`, `Sigmoid(z) < 0.5` if and only if
`z < 0`, and `Sigmoid(0) = 0.5` exactly (reading `float64` as exact arithmetic). -/
theorem C19_sigmoid_threshold_is_sign (z : ℚ) :
    (Sigmoid z > 0.5 ↔ z > 0) ∧ (Sigmoid z < 0.5 ↔ z < 0) ∧ Sigmoid 0 = 0.5 := by
  have h05 : (0.5 : ℚ) = 1 / 2 := by norm_num
  rw [h05]
  refine ⟨⟨fun h => ?_, Sigmoid_gt_half_of_pos⟩, ⟨fun h => ?_, Sigmoid_lt_half_of_neg⟩,
    Sigmoid_zero⟩
  · by_contra hz
    push_neg at hz
    rcases hz.lt_or_eq with hneg | hzero
    · have := Sigmoid_lt_half_of_neg hneg
      linarith
    · rw [hzero, Sigmoid_zero] at h
      exact lt_irrefl _ h
  · by_contra hz
    push_neg at hz
    rcases hz.lt_or_eq with hpos | hzero
    · have := Sigmoid_gt_half_of_pos hpos
      linarith
    · rw [← hzero, Sigmoid_zero] at h
      exact lt_irrefl _ h

/-! ## Length mismatches in `CrossEntropy` and `Predict` -/

theorem crossEntropyLoop_none (y yPred : List ℚ) :
    ∀ i : ℕ, yPred.length < i → crossEntropyLoop y yPred i = none := by
  intro i
  induction i with
  | zero => intro h; omega
  | succ i ih =>
    intro h
    rw [crossEntropyLoop]
    by_cases hi : yPred.length < i
    · rw [ih hi]; rfl
    · have hnone : yPred[i]? = none := List.getElem?_eq_none (by omega)
      rw [hnone]
      cases crossEntropyLoop y yPred i <;> cases y[i]? <;> rfl

/-- With at least as many predictions as labels the loss is computed from the first
`len(y)` predictions. -/
theorem CrossEntropy_eq_sum_of_le (y yPred : List ℚ) (hlen : y.length ≤ yPred.length) :
    CrossEntropy y yPred
      = some (-(∑ k ∈ Finset.range y.length,
            (y.getD k 0 * Log (clampPrediction (yPred.getD k 0))
              + (1 - y.getD k 0) * Log (1 - clampPrediction (yPred.getD k 0))))
          / (y.length : ℚ)) := by
  rw [CrossEntropy, crossEntropyLoop_eq_sum y yPred _ le_rfl hlen]
  rfl

/-- C12 (counterexample): with one label and two predictions `CrossEntropy` returns a
loss; the second prediction is ignored. -/
theorem C12_cross_entropy_accepts_longer_predictions :
    ([1] : List ℚ).length ≠ ([1 / 2, 1 / 3] : List ℚ).length
    ∧ CrossEntropy [1] [1 / 2, 1 / 3] = CrossEntropy [1] [1 / 2]
    ∧ CrossEntropy [1] [1 / 2, 1 / 3] ≠ none := by
  have h1 := CrossEntropy_eq_sum_of_le [1] [1 / 2, 1 / 3] (by decide)
  have h2 := CrossEntropy_eq_sum_of_le [1] [1 / 2] (by decide)
  refine ⟨by decide, ?_, ?_⟩
  · rw [h1, h2]
    simp [Finset.sum_range_succ]
  · rw [h1]
    exact Option.some_ne_none _

/-- C12 (amended): when `yPred` is shorter than `y`, `CrossEntropy` fails (index out
of range); when `yPred` is longer than `y` it returns a loss, the one of `y` against
the first `len(y)` predictions, and the extra predictions are ignored. -/
theorem C12_cross_entropy_length_mismatch (y yPred : List ℚ) :
    (yPred.length < y.length → CrossEntropy y yPred = none)
    ∧ (y.length < yPred.length →
        CrossEntropy y yPred ≠ none
        ∧ CrossEntropy y yPred = CrossEntropy y (yPred.take y.length)) := by
  constructor
  · intro h
    rw [CrossEntropy, crossEntropyLoop_none y yPred _ h]
    rfl
  · intro h
    have h1 := CrossEntropy_eq_sum_of_le y yPred h.le
    have h2 := CrossEntropy_eq_sum_of_le y (yPred.take y.length)
      (by rw [List.length_take]; omega)
    refine ⟨by rw [h1]; exact Option.some_ne_none _, ?_⟩
    rw [h1, h2]
    congr 3
    apply Finset.sum_congr rfl
    intro k hk
    have hk' : k < y.length := Finset.mem_range.mp hk
    simp only [List.getD_eq_getElem?_getD, List.getElem?_take_of_lt hk']

/-- C12 (amended) at `y = [1, 0]` against the shorter `[1/2]` and `y = [1]` against the
longer `[1/2, 1/3]`. -/
theorem C12_cross_entropy_length_mismatch_witness :
    CrossEntropy [1, 0] [1 / 2] = none
    ∧ CrossEntropy [1] [1 / 2, 1 / 3] = CrossEntropy [1] (([1 / 2, 1 / 3] : List ℚ).take 1) :=
  ⟨(C12_cross_entropy_length_mismatch [1, 0] [1 / 2]).1 (by decide),
   ((C12_cross_entropy_length_mismatch [1] [1 / 2, 1 / 3]).2 (by decide)).2⟩

theorem predictLoop_none (weights : List ℚ) (bias : ℚ) (x : List ℚ) :
    ∀ i : ℕ, weights.length < i → predictLoop weights bias x i = none := by
  intro i
  induction i with
  | zero => intro h; omega
  | succ i ih =>
    intro h
    rw [predictLoop]
    by_cases hi : weights.length < i
    · rw [ih hi]; rfl
    · have hnone : weights[i]? = none := List.getElem?_eq_none (by omega)
      rw [hnone]
      cases predictLoop weights bias x i <;> cases x[i]? <;> rfl

/-- With an input no longer than the weight vector `Predict` uses the first `len(x)`
weights. -/
theorem Predict_eq_of_le (p : Perceptron) (x : List ℚ) (h : x.length ≤ p.Weights.length) :
    p.Predict x = some (Sigmoid (p.Bias +
      ∑ i ∈ Finset.range x.length, p.Weights.getD i 0 * x.getD i 0)) := by
  rw [Perceptron.Predict, predictLoop_eq_sum _ _ _ _ le_rfl h]
  rfl

/-- C13 (counterexample): a perceptron with two weights accepts an input of length
one and returns `Sigmoid(0) = 0.5`; the weight `2` is ignored. -/
theorem C13_predict_accepts_shorter_input :
    ([0] : List ℚ).length ≠ (Perceptron.mk [1, 2] 0).Weights.length
    ∧ (Perceptron.mk [1, 2] 0).Predict [0] = some (1 / 2) := by
  refine ⟨by decide, ?_⟩
  rw [Predict_eq_of_le _ _ (by decide)]
  simp [Finset.sum_range_succ, Sigmoid_zero]

/-- C13 (amended): when `x` is longer than the weight vector, `Predict` fails (index
out of range); when `x` is shorter it returns `Sigmoid(b + Σ_{i < len(x)} w_i * x_i)`,
and the trailing weights are ignored. -/
theorem C13_predict_length_mismatch (p : Perceptron) (x : List ℚ) :
    (p.Weights.length < x.length → p.Predict x = none)
    ∧ (x.length < p.Weights.length →
        p.Predict x = some (Sigmoid (p.Bias +
          ∑ i ∈ Finset.range x.length, p.Weights.getD i 0 * x.getD i 0))) := by
  constructor
  · intro h
    rw [Perceptron.Predict, predictLoop_none _ _ _ _ h]
    rfl
  · intro h
    exact Predict_eq_of_le p x h.le

/-- C13 (amended) at the perceptron with weights `[1, 2]`, bias `0`: the input
`[1, 1, 1]` is rejected, the input `[3]` gives `Sigmoid(3)`. -/
theorem C13_predict_length_mismatch_witness :
    (Perceptron.mk [1, 2] 0).Predict [1, 1, 1] = none
    ∧ (Perceptron.mk [1, 2] 0).Predict [3] = some (Sigmoid 3) := by
  refine ⟨(C13_predict_length_mismatch (Perceptron.mk [1, 2] 0) [1, 1, 1]).1 (by decide), ?_⟩
  rw [(C13_predict_length_mismatch (Perceptron.mk [1, 2] 0) [3]).2 (by decide)]
  simp [Finset.sum_range_succ]

/-! ## `PredictBatch` -/

theorem PredictBatchRun_eq (p : Perceptron) :
    ∀ X : List (List ℚ),
      p.PredictBatchRun X = (p.PredictBatch X).bind (fun preds => some (p, preds)) := by
  intro X
  induction X with
  | nil => rfl
  | cons x rest ih =>
    rw [Perceptron.PredictBatchRun, Perceptron.PredictRun, Perceptron.PredictBatch,
      List.mapM_cons]
    cases hx : p.Predict x with
    | none => rfl
    | some r =>
      simp only [Option.bind_eq_bind, Option.some_bind, ih, Perceptron.PredictBatch]
      cases hrest : List.mapM p.Predict rest with
      | none => rfl
      | some rs => rfl

/-- C15: for every perceptron and every batch `X` whose rows all have length `F`,
`PredictBatch(X)` has length `len(X)` and its `i`-th element equals `Predict(X[i])` for
every `i` (same order, no aggregation), and the receiver is the same perceptron after
the call. -/
theorem C15_predict_batch_elementwise (p : Perceptron) (X : List (List ℚ))
    (hrow : ∀ row ∈ X, row.length = p.Weights.length) :
    ∃ preds : List ℚ,
      p.PredictBatch X = some preds
      ∧ preds.length = X.length
      ∧ (∀ (i : ℕ) (row : List ℚ), X[i]? = some row → p.Predict row = preds[i]?)
      ∧ p.PredictBatchRun X = some (p, preds) := by
  have hpred := PredictBatch_eq_map p X hrow
  refine ⟨_, hpred, List.length_map _ _, ?_, ?_⟩
  · intro i row hi
    have hmem : row ∈ X := List.getElem?_mem hi
    rw [Predict_eq_of_length p row (hrow row hmem), List.getElem?_map, hi]
    rfl
  · rw [PredictBatchRun_eq, hpred]
    rfl

/-- C15 at the perceptron with weights `[1, 2]`, bias `0` and the batch
`[[0, 0], [1, 1]]`. -/
theorem C15_predict_batch_elementwise_witness :
    ∃ preds : List ℚ,
      (Perceptron.mk [1, 2] 0).PredictBatch [[0, 0], [1, 1]] = some preds
      ∧ preds.length = ([[0, 0], [1, 1]] : List (List ℚ)).length
      ∧ (∀ (i : ℕ) (row : List ℚ), ([[0, 0], [1, 1]] : List (List ℚ))[i]? = some row →
          (Perceptron.mk [1, 2] 0).Predict row = preds[i]?)
      ∧ (Perceptron.mk [1, 2] 0).PredictBatchRun [[0, 0], [1, 1]]
          = some (Perceptron.mk [1, 2] 0, preds) :=
  C15_predict_batch_elementwise (Perceptron.mk [1, 2] 0) [[0, 0], [1, 1]] (by decide)

/-! ## The range reduction of `Log` -/

/-- The doubling loop on a positive argument: it runs `n` times, ends in `[1/2, 1)`
when it is entered below `1/2`, and the loop as written, without the guard of the
model, ends after the same `n` iterations. -/
theorem logDouble_spec : ∀ (y : ℚ) (k : ℤ), 0 < y →
    ∃ n : ℕ, logDouble y k = (y * 2 ^ n, k - n)
      ∧ (y < 1 / 2 → 1 / 2 ≤ y * 2 ^ n ∧ y * 2 ^ n < 1)
      ∧ (1 / 2 ≤ y → n = 0)
      ∧ logDoubleFuel (n + 1) y k = some (y * 2 ^ n, k - n) := by
  intro y k
  induction y, k using logDouble.induct with
  | case1 y k h ih =>
    intro hpos
    have h05 : (0.5 : ℚ) = 1 / 2 := by norm_num
    have h20 : (2.0 : ℚ) = 2 := by norm_num
    have hlt : y < 1 / 2 := by rw [← h05]; exact h.2
    obtain ⟨n, hrun, hbelow, habove, hfuel⟩ := ih (by rw [h20]; linarith)
    rw [h20] at hrun hbelow habove hfuel
    have hpow : y * 2 * 2 ^ n = y * 2 ^ (n + 1) := by rw [pow_succ]; ring
    have hk : k - 1 - (n : ℤ) = k - ((n + 1 : ℕ) : ℤ) := by push_cast; ring
    refine ⟨n + 1, ?_, ?_, ?_, ?_⟩
    · rw [logDouble, dif_pos h, h20, hrun, hpow, hk]
    · intro _
      by_cases h2 : y * 2 < 1 / 2
      · rw [← hpow]; exact hbelow h2
      · push_neg at h2
        have hn : n = 0 := habove h2
        subst hn
        constructor <;> norm_num <;> linarith
    · intro hge; linarith
    · rw [logDoubleFuel, if_pos h.2, h20, hfuel, hpow, hk]
  | case2 y k h =>
    intro hpos
    have h05 : (0.5 : ℚ) = 1 / 2 := by norm_num
    have hge : 1 / 2 ≤ y := by
      by_contra hlt
      push_neg at hlt
      exact h ⟨hpos, by rw [h05]; exact hlt⟩
    refine ⟨0, ?_, ?_, ?_, ?_⟩
    · rw [logDouble, dif_neg h]; simp
    · intro hlt; linarith
    · intro _; rfl
    · rw [logDoubleFuel, if_neg (by rw [h05]; linarith)]; simp

/-- The halving loop: it runs `n` times and ends in `[1, 2)` when it is entered at
`2` or above; the loop with a bound on its iterations ends after the same `n`. -/
theorem logHalve_spec : ∀ (y : ℚ) (k : ℤ),
    ∃ n : ℕ, logHalve y k = (y / 2 ^ n, k + n)
      ∧ (2 ≤ y → 1 ≤ y / 2 ^ n ∧ y / 2 ^ n < 2)
      ∧ (y < 2 → n = 0)
      ∧ logHalveFuel (n + 1) y k = some (y / 2 ^ n, k + n) := by
  intro y k
  induction y, k using logHalve.induct with
  | case1 y k h ih =>
    have h20 : (2.0 : ℚ) = 2 := by norm_num
    have hge : (2 : ℚ) ≤ y := by rw [← h20]; exact h
    obtain ⟨n, hrun, habove, hbelow, hfuel⟩ := ih
    rw [h20] at hrun habove hbelow hfuel
    have hpow : y / 2 / 2 ^ n = y / 2 ^ (n + 1) := by
      rw [pow_succ, div_div]; congr 1; ring
    have hk : k + 1 + (n : ℤ) = k + ((n + 1 : ℕ) : ℤ) := by push_cast; ring
    refine ⟨n + 1, ?_, ?_, ?_, ?_⟩
    · rw [logHalve, dif_pos h, h20, hrun, hpow, hk]
    · intro _
      by_cases h2 : 2 ≤ y / 2
      · rw [← hpow]; exact habove h2
      · push_neg at h2
        have hn : n = 0 := hbelow h2
        subst hn
        constructor <;> norm_num <;> linarith
    · intro hlt; linarith
    · rw [logHalveFuel, if_pos h, h20, hfuel, hpow, hk]
  | case2 y k h =>
    have h20 : (2.0 : ℚ) = 2 := by norm_num
    have hlt : y < 2 := by
      rw [h20] at h
      exact not_le.mp h
    refine ⟨0, ?_, ?_, ?_, ?_⟩
    · rw [logHalve, dif_neg h]; simp
    · intro hge; linarith
    · intro _; rfl
    · rw [logHalveFuel, if_neg h]; simp

/-- The value of `Log` below `0.8`: the doubling loop, then the series. -/
theorem Log_of_lt (x : ℚ) (h0 : 0 < x) (h : x < 0.8) :
    Log x = ((logDouble x 0).2 : ℚ) * 0.6931471805599453
      + logSeriesLoop ((logDouble x 0).1 - 1.0) 29 2.0 ((logDouble x 0).1 - 1.0)
          (((logDouble x 0).1 - 1.0) * ((logDouble x 0).1 - 1.0)) (-1.0) := by
  have h08 : (0.8 : ℚ) = 4 / 5 := by norm_num
  rw [h08] at h
  rw [Log, if_neg (by norm_num; exact h0), if_neg (by norm_num; linarith),
    if_neg (by norm_num; intro h'; linarith)]
  simp only [logReduce]
  rw [if_pos (by norm_num; linarith)]

/-- The value of `Log` above `1.2`: the halving loop, then the series. -/
theorem Log_of_gt (x : ℚ) (h : 1.2 < x) :
    Log x = ((logHalve x 0).2 : ℚ) * 0.6931471805599453
      + logSeriesLoop ((logHalve x 0).1 - 1.0) 29 2.0 ((logHalve x 0).1 - 1.0)
          (((logHalve x 0).1 - 1.0) * ((logHalve x 0).1 - 1.0)) (-1.0) := by
  have h12 : (1.2 : ℚ) = 6 / 5 := by norm_num
  rw [h12] at h
  rw [Log, if_neg (by norm_num; linarith), if_neg (by norm_num; linarith),
    if_neg (by norm_num; intro _; linarith)]
  simp only [logReduce]
  rw [if_neg (by norm_num; linarith)]

/-- The value of `Log` on `[0.8, 1.2]` away from `1`: the direct series. -/
theorem Log_of_near (x : ℚ) (hlo : 0.8 ≤ x) (hhi : x ≤ 1.2) (hne : x ≠ 1) :
    Log x = logNearLoop (x - 1.0) 30 0.0 (x - 1.0) 1.0 := by
  have h08 : (0.8 : ℚ) = 4 / 5 := by norm_num
  rw [h08] at hlo
  rw [Log, if_neg (by norm_num; linarith), if_neg (by norm_num; exact hne),
    if_pos ⟨by rw [h08]; exact hlo, hhi⟩]

/-! ## The sign of `Log` on `(0, 1)` and of the loss -/

theorem logNearLoop_succ (y : ℚ) (k : ℕ) (result term n : ℚ) :
    logNearLoop y (k + 1) result term n =
      if term * (-y) / (n + 1.0) < 1e-15 ∧ term * (-y) / (n + 1.0) > -1e-15 then
        result + term / n
      else logNearLoop y k (result + term / n) (term * (-y)) (n + 1.0) := rfl

theorem logSeriesLoop_succ (t : ℚ) (k : ℕ) (n result tPower sign : ℚ) :
    logSeriesLoop t (k + 1) n result tPower sign =
      if (if sign * tPower / n < 0 then -(sign * tPower / n) else sign * tPower / n) < 1e-15
      then result + sign * tPower / n
      else logSeriesLoop t k (n + 1) (result + sign * tPower / n) (tPower * t)
        (sign * -1.0) := rfl

/-- With `y ≤ 0` every term of the direct series is `≤ 0`: the loop never returns
more than the sum it is entered with. -/
theorem logNearLoop_le {y : ℚ} (hy : y ≤ 0) :
    ∀ (k : ℕ) (result term n : ℚ), term ≤ 0 → 0 < n →
      logNearLoop y k result term n ≤ result := by
  intro k
  induction k with
  | zero => intro result term n _ _; exact le_of_eq rfl
  | succ k ih =>
    intro result term n ht hn
    have hdiv : term / n ≤ 0 := div_nonpos_of_nonpos_of_nonneg ht hn.le
    have hterm : term * (-y) ≤ 0 := mul_nonpos_of_nonpos_of_nonneg ht (by linarith)
    have hn1 : (0 : ℚ) < n + 1.0 := by norm_num; linarith
    rw [logNearLoop_succ]
    split
    · linarith
    · have := ih (result + term / n) (term * (-y)) (n + 1.0) hterm hn1
      linarith

/-- With `t ≤ 0` every term of the alternating series is `≤ 0`: the loop never
returns more than the sum it is entered with. -/
theorem logSeriesLoop_le {t : ℚ} (ht : t ≤ 0) :
    ∀ (k : ℕ) (n result tPower sign : ℚ), 0 < n → sign * tPower ≤ 0 →
      logSeriesLoop t k n result tPower sign ≤ result := by
  intro k
  induction k with
  | zero => intro n result tPower sign _ _; exact le_of_eq rfl
  | succ k ih =>
    intro n result tPower sign hn hs
    have hdiv : sign * tPower / n ≤ 0 := div_nonpos_of_nonpos_of_nonneg hs hn.le
    have hnext : sign * -1.0 * (tPower * t) ≤ 0 := by
      have h1 : sign * -1.0 * (tPower * t) = sign * tPower * (-t) := by norm_num; ring
      rw [h1]
      exact mul_nonpos_of_nonpos_of_nonneg hs (by linarith)
    rw [logSeriesLoop_succ]
    by_cases hc : (if sign * tPower / n < 0 then -(sign * tPower / n)
        else sign * tPower / n) < 1e-15
    · rw [if_pos hc]
      linarith
    · rw [if_neg hc]
      have := ih (n + 1) (result + sign * tPower / n) (tPower * t) (sign * -1.0)
        (by linarith) hnext
      linarith

/-- `Log` is negative on `(0, 1)`, on each branch: the direct series on `[0.8, 1)`, and
below `0.8` the doubling loop (with `k ≤ 0`) followed by the series in `t = y - 1 < 0`. -/
theorem Log_neg {p : ℚ} (h0 : 0 < p) (h1 : p < 1) : Log p < 0 := by
  by_cases hnear : 0.8 ≤ p
  · rw [Log_of_near p hnear (by norm_num; linarith) (ne_of_lt h1), logNearLoop_succ]
    have hy : p - 1.0 ≤ 0 := by norm_num; linarith
    have hfirst : (0.0 : ℚ) + (p - 1.0) / 1.0 < 0 := by norm_num; linarith
    split
    · exact hfirst
    · have := logNearLoop_le hy 29 (0.0 + (p - 1.0) / 1.0) ((p - 1.0) * -(p - 1.0))
        (1.0 + 1.0) (mul_nonpos_of_nonpos_of_nonneg hy (by linarith)) (by norm_num)
      linarith
  · push_neg at hnear
    rw [Log_of_lt p h0 hnear]
    obtain ⟨n, hrun, hbelow, habove, _⟩ := logDouble_spec p 0 h0
    rw [hrun]
    simp only
    have hyred : p * 2 ^ n < 1 := by
      by_cases hhalf : p < 1 / 2
      · exact (hbelow hhalf).2
      · push_neg at hhalf
        rw [habove hhalf]
        simpa using h1
    have ht : p * 2 ^ n - 1.0 < 0 := by norm_num; linarith
    have hk : (((0 : ℤ) - (n : ℤ) : ℤ) : ℚ) * 0.6931471805599453 ≤ 0 := by
      push_cast
      have : (0 : ℚ) ≤ (n : ℚ) := Nat.cast_nonneg n
      norm_num
    have hser := logSeriesLoop_le ht.le 29 2.0 (p * 2 ^ n - 1.0)
      ((p * 2 ^ n - 1.0) * (p * 2 ^ n - 1.0)) (-1.0) (by norm_num)
      (by
        have hsq : 0 ≤ (p * 2 ^ n - 1.0) * (p * 2 ^ n - 1.0) := mul_self_nonneg _
        norm_num at hsq ⊢
        linarith)
    linarith

/-- Both logarithms taken by `CrossEntropy` are negative. -/
theorem Log_clampPrediction_neg (p : ℚ) :
    Log (clampPrediction p) < 0 ∧ Log (1 - clampPrediction p) < 0 := by
  obtain ⟨h1, h2⟩ := clampPrediction_pos p
  exact ⟨Log_neg h1 (by linarith), Log_neg h2 (by linarith)⟩

/-- C20: the loss is never negative: for every non-empty pair of equal-length sequences
`y`, `yPred` with every label `y_i` in `[0, 1]` and arbitrary predictions,
`CrossEntropy(y, yPred) ≥ 0`, because `Log(p) < 0` for every `p` with `0 < p < 1` on
each of `Log`'s branches (reading `float64` as exact arithmetic). -/
theorem C20_cross_entropy_nonneg (y yPred : List ℚ) (hlen : y.length = yPred.length)
    (_hne : 0 < y.length) (hlab : ∀ v ∈ y, 0 ≤ v ∧ v ≤ 1) :
    (∃ L : ℚ, CrossEntropy y yPred = some L ∧ 0 ≤ L)
    ∧ (∀ p : ℚ, 0 < p → p < 1 → Log p < 0) := by
  refine ⟨⟨_, CrossEntropy_eq_sum y yPred hlen, ?_⟩, fun p h0 h1 => Log_neg h0 h1⟩
  apply div_nonneg _ (Nat.cast_nonneg _)
  rw [neg_nonneg]
  apply Finset.sum_nonpos
  intro k hk
  have hk' : k < y.length := Finset.mem_range.mp hk
  obtain ⟨hl0, hl1⟩ := hlab (y.getD k 0)
    (by rw [List.getD_eq_getElem _ _ hk']; exact List.getElem_mem hk')
  obtain ⟨hc1, hc2⟩ := Log_clampPrediction_neg (yPred.getD k 0)
  have h1 : y.getD k 0 * Log (clampPrediction (yPred.getD k 0)) ≤ 0 :=
    mul_nonpos_of_nonneg_of_nonpos hl0 hc1.le
  have h2 : (1 - y.getD k 0) * Log (1 - clampPrediction (yPred.getD k 0)) ≤ 0 :=
    mul_nonpos_of_nonneg_of_nonpos (by linarith) hc2.le
  linarith

/-- C20 at `y = [1, 0]`, `yPred = [2, 1/2]`. -/
theorem C20_cross_entropy_nonneg_witness :
    ∃ L : ℚ, CrossEntropy [1, 0] [2, 1 / 2] = some L ∧ 0 ≤ L :=
  (C20_cross_entropy_nonneg [1, 0] [2, 1 / 2] rfl (by decide)
    (by intro v hv; simp at hv; rcases hv with h | h <;> subst h <;> norm_num)).1

/-- C11 (counterexample): for `y = [1/2]`, whose entry lies strictly in `(0, 1)`,
`CrossEntropy(y, y) = -Log(1/2)`, which is positive (about `0.693`), not zero. -/
theorem C11_cross_entropy_self_not_zero :
    (∀ v ∈ ([1 / 2] : List ℚ), 0 < v ∧ v < 1)
    ∧ CrossEntropy [1 / 2] [1 / 2] = some (-Log (1 / 2))
    ∧ CrossEntropy [1 / 2] [1 / 2] ≠ some 0 := by
  have hc : clampPrediction (1 / 2) = 1 / 2 := by rw [clampPrediction_eq]; norm_num
  have hval : CrossEntropy [1 / 2] [1 / 2] = some (-Log (1 / 2)) := by
    rw [CrossEntropy_eq_sum [1 / 2] [1 / 2] rfl]
    simp only [List.length_cons, List.length_nil, Finset.sum_range_succ, Finset.sum_range_zero,
      List.getD_cons_zero, hc]
    norm_num
    ring
  have hneg : Log (1 / 2) < 0 := Log_neg (by norm_num) (by norm_num)
  refine ⟨?_, hval, ?_⟩
  · intro v hv
    simp at hv
    subst hv
    norm_num
  · rw [hval]
    intro h
    have := Option.some.inj h
    linarith

/-- C11 (amended): for every non-empty sequence `y` whose entries all lie strictly in
`(0, 1)`, `CrossEntropy(y, y)` is strictly positive: it is the mean over `i` of
`-(y_i * Log(c_i) + (1 - y_i) * Log(1 - c_i))` with `c_i` the clamped `y_i`, the
entropy of the labels, which vanishes for no such `y`. -/
theorem C11_cross_entropy_self_pos (y : List ℚ) (hne : 0 < y.length)
    (hlab : ∀ v ∈ y, 0 < v ∧ v < 1) :
    ∃ L : ℚ, CrossEntropy y y = some L
      ∧ L = -(∑ k ∈ Finset.range y.length,
            (y.getD k 0 * Log (clampPrediction (y.getD k 0))
              + (1 - y.getD k 0) * Log (1 - clampPrediction (y.getD k 0))))
          / (y.length : ℚ)
      ∧ 0 < L := by
  refine ⟨_, CrossEntropy_eq_sum y y rfl, rfl, ?_⟩
  apply div_pos _ (by exact_mod_cast hne)
  rw [← Finset.sum_neg_distrib]
  apply Finset.sum_pos _ (Finset.nonempty_range_iff.mpr (by omega))
  intro k hk
  have hk' : k < y.length := Finset.mem_range.mp hk
  obtain ⟨hl0, hl1⟩ := hlab (y.getD k 0)
    (by rw [List.getD_eq_getElem _ _ hk']; exact List.getElem_mem hk')
  obtain ⟨hc1, hc2⟩ := Log_clampPrediction_neg (y.getD k 0)
  have h1 : y.getD k 0 * Log (clampPrediction (y.getD k 0)) < 0 :=
    mul_neg_of_pos_of_neg hl0 hc1
  have h2 : (1 - y.getD k 0) * Log (1 - clampPrediction (y.getD k 0)) < 0 :=
    mul_neg_of_pos_of_neg (by linarith) hc2
  linarith

/-- C11 (amended) at `y = [1/2, 1/4]`. -/
theorem C11_cross_entropy_self_pos_witness :
    ∃ L : ℚ, CrossEntropy [1 / 2, 1 / 4] [1 / 2, 1 / 4] = some L ∧ 0 < L := by
  obtain ⟨L, h1, _, h3⟩ := C11_cross_entropy_self_pos [1 / 2, 1 / 4] (by decide)
    (by intro v hv; simp at hv; rcases hv with h | h <;> subst h <;> norm_num)
  exact ⟨L, h1, h3⟩

/-! ## The series of the range-reduced branch of `Log` -/

/-- The series loop entered for the term in `t^(j+1)`, with `k` iterations to go and
the sum of the first `j` terms so far, returns the sum of the first `N` terms for some
`N` between `j` and `j + k`, at least `j + 1` when `k > 0`. -/
theorem logSeriesLoop_eq_altSeries (t : ℚ) :
    ∀ (k j : ℕ), ∃ N : ℕ, j ≤ N ∧ N ≤ j + k ∧ (0 < k → j + 1 ≤ N)
      ∧ logSeriesLoop t k ((j : ℚ) + 1) (altSeries t j) (t ^ (j + 1)) ((-1) ^ j)
          = altSeries t N := by
  intro k
  induction k with
  | zero =>
    intro j
    exact ⟨j, le_rfl, le_rfl, fun h => absurd h (lt_irrefl 0), rfl⟩
  | succ k ih =>
    intro j
    have hsum : altSeries t j + (-1) ^ j * t ^ (j + 1) / ((j : ℚ) + 1) = altSeries t (j + 1) := by
      unfold altSeries
      rw [Finset.sum_range_succ]
    rw [logSeriesLoop_succ, hsum]
    by_cases hc : (if (-1) ^ j * t ^ (j + 1) / ((j : ℚ) + 1) < 0 then
        -((-1) ^ j * t ^ (j + 1) / ((j : ℚ) + 1))
        else (-1) ^ j * t ^ (j + 1) / ((j : ℚ) + 1)) < 1e-15
    · rw [if_pos hc]
      exact ⟨j + 1, by omega, by omega, fun _ => le_rfl, rfl⟩
    · rw [if_neg hc]
      obtain ⟨N, h1, h2, _, hN⟩ := ih (j + 1)
      have hn : ((j : ℚ) + 1 + 1) = (((j + 1 : ℕ) : ℚ) + 1) := by push_cast; ring
      have hp : t ^ (j + 1) * t = t ^ (j + 1 + 1) := by rw [pow_succ t (j + 1)]
      have hs : ((-1 : ℚ) ^ j * -1.0) = (-1) ^ (j + 1) := by rw [pow_succ]; norm_num
      rw [hn, hp, hs, hN]
      exact ⟨N, by omega, by omega, fun _ => by omega, rfl⟩

/-- The series of `Log` after the range reduction is the alternating series truncated
at some `N` with `2 ≤ N ≤ 30`. -/
theorem logSeries_truncated (t : ℚ) :
    ∃ N : ℕ, 2 ≤ N ∧ N ≤ 30
      ∧ logSeriesLoop t 29 2.0 t (t * t) (-1.0) = altSeries t N := by
  obtain ⟨N, _, h2, h3, hN⟩ := logSeriesLoop_eq_altSeries t 29 1
  have hn : (((1 : ℕ) : ℚ) + 1) = 2.0 := by norm_num
  have hr : altSeries t 1 = t := by
    unfold altSeries
    simp
  have hp : t ^ (1 + 1) = t * t := by ring
  have hs : ((-1 : ℚ) ^ 1) = -1.0 := by norm_num
  rw [hn, hr, hp, hs] at hN
  exact ⟨N, h3 (by decide), by omega, hN⟩

/-- The range reduction of `Log` on a number `x > 0` outside `[0.8, 1.2]`: the loop as
written ends within `fuel` iterations with `x = y * 2^k` and `0.5 ≤ y < 2.0`, and
`Log(x) = k * 0.6931471805599453 +` the alternating series in `t = y - 1` truncated at
some `N` with `2 ≤ N ≤ 30`. -/
theorem Log_range_reduction_exact (x : ℚ) (h0 : 0 < x) (hout : ¬ (0.8 ≤ x ∧ x ≤ 1.2)) :
    ∃ (k : ℤ) (y : ℚ) (fuel N : ℕ),
      (if x < 1.0 then logDoubleFuel fuel x 0 else logHalveFuel fuel x 0) = some (y, k)
      ∧ logReduce x = (y, k)
      ∧ x = y * (2 : ℚ) ^ k
      ∧ 0.5 ≤ y ∧ y < 2.0
      ∧ 2 ≤ N ∧ N ≤ 30
      ∧ Log x = (k : ℚ) * 0.6931471805599453 + altSeries (y - 1) N := by
  have h05 : (0.5 : ℚ) = 1 / 2 := by norm_num
  have h08 : (0.8 : ℚ) = 4 / 5 := by norm_num
  have h10 : (1.0 : ℚ) = 1 := by norm_num
  have h12 : (1.2 : ℚ) = 6 / 5 := by norm_num
  have h20 : (2.0 : ℚ) = 2 := by norm_num
  by_cases hlt : x < 0.8
  · have hx1 : x < 1.0 := by rw [h08] at hlt; rw [h10]; linarith
    obtain ⟨n, hrun, hbelow, habove, hfuel⟩ := logDouble_spec x 0 h0
    obtain ⟨N, hN2, hN30, hser⟩ := logSeries_truncated (x * 2 ^ n - 1.0)
    have hpow : (0 : ℚ) < 2 ^ n := by positivity
    refine ⟨0 - n, x * 2 ^ n, n + 1, N, ?_, ?_, ?_, ?_, ?_, hN2, hN30, ?_⟩
    · rw [if_pos hx1]; exact hfuel
    · rw [logReduce, if_pos hx1]; exact hrun
    · rw [zero_sub, zpow_neg, zpow_natCast]
      field_simp
    · rw [h05]
      by_cases hhalf : x < 1 / 2
      · exact (hbelow hhalf).1
      · push_neg at hhalf
        rw [habove hhalf]
        simpa using hhalf
    · rw [h20]
      by_cases hhalf : x < 1 / 2
      · linarith [(hbelow hhalf).2]
      · push_neg at hhalf
        rw [habove hhalf, h08] at *
        norm_num
        linarith
    · rw [Log_of_lt x h0 hlt, hrun]
      simp only
      rw [hser, h10]
  · have hgt : 1.2 < x := by
      by_contra hle
      push_neg at hle hlt
      exact hout ⟨hlt, hle⟩
    have hx1 : ¬ x < 1.0 := by rw [h12] at hgt; rw [h10]; linarith
    obtain ⟨n, hrun, habove, hbelow, hfuel⟩ := logHalve_spec x 0
    obtain ⟨N, hN2, hN30, hser⟩ := logSeries_truncated (x / 2 ^ n - 1.0)
    have hpow : (0 : ℚ) < 2 ^ n := by positivity
    refine ⟨0 + n, x / 2 ^ n, n + 1, N, ?_, ?_, ?_, ?_, ?_, hN2, hN30, ?_⟩
    · rw [if_neg hx1]; exact hfuel
    · rw [logReduce, if_neg hx1]; exact hrun
    · rw [zero_add, zpow_natCast]
      field_simp
    · rw [h05]
      by_cases htwo : 2 ≤ x
      · linarith [(habove htwo).1]
      · push_neg at htwo
        rw [hbelow htwo, h12] at *
        norm_num
        linarith
    · rw [h20]
      by_cases htwo : 2 ≤ x
      · exact (habove htwo).2
      · push_neg at htwo
        rw [hbelow htwo]
        simpa using htwo
    · rw [Log_of_gt x hgt, hrun]
      simp only
      rw [hser, h10]

/-! ## The range reduction on a value that may be `+Inf` -/

theorem logHalveFuelExt_finite :
    ∀ (fuel : ℕ) (y : ℚ) (k : ℤ),
      logHalveFuelExt fuel (ExtValue.finite y) k
        = (logHalveFuel fuel y k).bind (fun r => some (ExtValue.finite r.1, r.2)) := by
  intro fuel
  induction fuel with
  | zero => intro y k; rfl
  | succ fuel ih =>
    intro y k
    rw [logHalveFuelExt, logHalveFuel]
    by_cases h : y ≥ 2.0
    · rw [if_pos h, if_pos (by simp only [ExtValue.ge, decide_eq_true_eq]; exact h)]
      exact ih (y / 2.0) (k + 1)
    · rw [if_neg h, if_neg (by simp only [ExtValue.ge, decide_eq_true_eq]; exact h)]
      rfl

theorem logDoubleFuelExt_finite :
    ∀ (fuel : ℕ) (y : ℚ) (k : ℤ),
      logDoubleFuelExt fuel (ExtValue.finite y) k
        = (logDoubleFuel fuel y k).bind (fun r => some (ExtValue.finite r.1, r.2)) := by
  intro fuel
  induction fuel with
  | zero => intro y k; rfl
  | succ fuel ih =>
    intro y k
    rw [logDoubleFuelExt, logDoubleFuel]
    by_cases h : y < 0.5
    · rw [if_pos h, if_pos (by simp only [ExtValue.lt, decide_eq_true_eq]; exact h)]
      exact ih (y * 2.0) (k - 1)
    · rw [if_neg h, if_neg (by simp only [ExtValue.lt, decide_eq_true_eq]; exact h)]
      rfl

/-- On a finite value the range reduction on extended values is the one on numbers. -/
theorem logReduceFuelExt_finite (fuel : ℕ) (x : ℚ) :
    logReduceFuelExt fuel (ExtValue.finite x)
      = (if x < 1.0 then logDoubleFuel fuel x 0 else logHalveFuel fuel x 0).bind
          (fun r => some (ExtValue.finite r.1, r.2)) := by
  rw [logReduceFuelExt]
  by_cases h : x < 1.0
  · rw [if_pos h, if_pos (by simp only [ExtValue.lt, decide_eq_true_eq]; exact h)]
    exact logDoubleFuelExt_finite fuel x 0
  · rw [if_neg h, if_neg (by simp only [ExtValue.lt, decide_eq_true_eq]; exact h)]
    exact logHalveFuelExt_finite fuel x 0

/-- On `+Inf` the halving loop is still running after any number of iterations:
`+Inf >= 2.0` holds and `+Inf / 2.0` is `+Inf` again. -/
theorem logHalveFuelExt_posInf :
    ∀ (fuel : ℕ) (k : ℤ), logHalveFuelExt fuel ExtValue.posInf k = none := by
  intro fuel
  induction fuel with
  | zero => intro k; rfl
  | succ fuel ih =>
    intro k
    have hge : ExtValue.posInf.ge 2.0 = true := rfl
    rw [logHalveFuelExt, if_pos hge]
    exact ih (k + 1)

/-- C18 (counterexample): `+Inf` is positive and above `1.2`, and on it the range
reduction of `Log` has not ended after any number of iterations: `Log` takes the
halving loop, whose test `y >= 2.0` stays true because `+Inf / 2.0 = +Inf`. -/
theorem C18_log_range_reduction_diverges_at_inf :
    ExtValue.posInf.gt 0 = true ∧ ExtValue.posInf.gt 1.2 = true
    ∧ ¬ ∃ fuel : ℕ, logReduceFuelExt fuel ExtValue.posInf ≠ none := by
  refine ⟨rfl, rfl, ?_⟩
  rintro ⟨fuel, h⟩
  apply h
  rw [logReduceFuelExt, if_neg (by simp [ExtValue.lt])]
  exact logHalveFuelExt_posInf fuel 0

/-- C18 (amended): reading `float64` as exact arithmetic, for every finite `x > 0`
outside `[0.8, 1.2]` the binary range reduction in `Log` terminates (the loop as
written ends within `fuel` iterations) and yields an integer `k` and a reduced value `y`
with `x = y * 2^k` and `0.5 ≤ y < 2.0`, and `Log(x) = k * 0.6931471805599453 +` the
alternating series in `t = y - 1` truncated at some `N` with `2 ≤ N ≤ 30`. -/
theorem C18_log_range_reduction (x : ℚ) (h0 : 0 < x) (hout : ¬ (0.8 ≤ x ∧ x ≤ 1.2)) :
    ∃ (k : ℤ) (y : ℚ) (fuel N : ℕ),
      logReduceFuelExt fuel (ExtValue.finite x) = some (ExtValue.finite y, k)
      ∧ (if x < 1.0 then logDoubleFuel fuel x 0 else logHalveFuel fuel x 0) = some (y, k)
      ∧ logReduce x = (y, k)
      ∧ x = y * (2 : ℚ) ^ k
      ∧ 0.5 ≤ y ∧ y < 2.0
      ∧ 2 ≤ N ∧ N ≤ 30
      ∧ Log x = (k : ℚ) * 0.6931471805599453 + altSeries (y - 1) N := by
  obtain ⟨k, y, fuel, N, h1, h2, h3, h4, h5, h6, h7, h8⟩ :=
    Log_range_reduction_exact x h0 hout
  refine ⟨k, y, fuel, N, ?_, h1, h2, h3, h4, h5, h6, h7, h8⟩
  rw [logReduceFuelExt_finite, h1]
  rfl

/-- C18 at `x = 12` (three halvings, `y = 3/2`) and at `x = 1/10` (three doublings,
`y = 4/5`). -/
theorem C18_log_range_reduction_witness :
    (∃ (k : ℤ) (y : ℚ) (fuel N : ℕ),
      logReduceFuelExt fuel (ExtValue.finite 12) = some (ExtValue.finite y, k)
      ∧ (if (12 : ℚ) < 1.0 then logDoubleFuel fuel 12 0 else logHalveFuel fuel 12 0)
        = some (y, k)
      ∧ logReduce 12 = (y, k)
      ∧ (12 : ℚ) = y * (2 : ℚ) ^ k
      ∧ 0.5 ≤ y ∧ y < 2.0
      ∧ 2 ≤ N ∧ N ≤ 30
      ∧ Log 12 = (k : ℚ) * 0.6931471805599453 + altSeries (y - 1) N)
    ∧ (∃ (k : ℤ) (y : ℚ) (fuel N : ℕ),
      logReduceFuelExt fuel (ExtValue.finite (1 / 10)) = some (ExtValue.finite y, k)
      ∧ (if (1 / 10 : ℚ) < 1.0 then logDoubleFuel fuel (1 / 10) 0
        else logHalveFuel fuel (1 / 10) 0) = some (y, k)
      ∧ logReduce (1 / 10) = (y, k)
      ∧ (1 / 10 : ℚ) = y * (2 : ℚ) ^ k
      ∧ 0.5 ≤ y ∧ y < 2.0
      ∧ 2 ≤ N ∧ N ≤ 30
      ∧ Log (1 / 10) = (k : ℚ) * 0.6931471805599453 + altSeries (y - 1) N) :=
  ⟨C18_log_range_reduction 12 (by norm_num) (by norm_num),
   C18_log_range_reduction (1 / 10) (by norm_num) (by norm_num)⟩

/-! ## The weight-length invariant -/

theorem initLoop_length (draw : ℕ → ℚ) (weights : List ℚ) :
    ∀ i : ℕ, (initLoop draw weights i).length = weights.length := by
  intro i
  induction i with
  | zero => rfl
  | succ i ih => rw [initLoop, List.length_set, ih]

theorem NewPerceptronWithSeed_eq (normFloat64 : ℤ → ℕ → ℚ) (numFeatures seed : ℤ)
    (hF : 0 ≤ numFeatures) :
    ∃ p : Perceptron, NewPerceptronWithSeed normFloat64 numFeatures seed = some p
      ∧ (p.Weights.length : ℤ) = numFeatures ∧ p.Bias = 0 := by
  rw [NewPerceptronWithSeed, if_neg (by omega)]
  refine ⟨_, rfl, ?_, ?_⟩
  · simp only [initLoop_length, List.length_replicate]
    exact Int.toNat_of_nonneg hF
  · norm_num

/-- The epoch loop keeps the number of weights, whatever the configuration. -/
theorem trainLoop_length (X : List (List ℚ)) (y : List ℚ) (config : TrainingConfig)
    (F : ℕ) (hy : y.length = X.length) (hrow : ∀ row ∈ X, row.length = F) :
    ∀ (left epoch : ℕ) (prevLoss : ℚ) (q0 : Perceptron) (r : Perceptron × List TrainEvent),
      q0.Weights.length = F → trainLoop X y config left epoch prevLoss q0 = some r →
      r.1.Weights.length = F := by
  intro left
  induction left with
  | zero =>
    intro epoch prevLoss q0 r hlen hrun
    rw [trainLoop] at hrun
    cases hrun
    exact hlen
  | succ left ih =>
    intro epoch prevLoss q0 r hlen hrun
    have hrow0 : ∀ row ∈ X, row.length = q0.Weights.length := by
      intro row hr; rw [hlen]; exact hrow row hr
    obtain ⟨predictions, loss, q1, hpred, _, hloss, hq1, hlen1⟩ :=
      epoch_total config.LearningRate X y q0 hy hrow0
    rw [trainLoop] at hrun
    simp only [hpred, hloss, Option.bind_eq_bind, Option.some_bind] at hrun
    by_cases hstop : epoch > 0 ∧ prevLoss - loss < config.EarlyStopDelta
    · rw [if_pos hstop] at hrun
      cases hrun
      exact hlen
    · rw [if_neg hstop] at hrun
      simp only [hq1, Option.some_bind] at hrun
      by_cases hL : config.LogEvery = 0
      · rw [if_pos hL] at hrun
        cases hrun
      · rw [if_neg hL] at hrun
        cases hrest : trainLoop X y config left (epoch + 1) loss q1 with
        | none =>
          rw [hrest] at hrun
          cases hrun
        | some rest =>
          rw [hrest] at hrun
          cases hrun
          exact ih (epoch + 1) loss q1 rest (by rw [hlen1, hlen]) hrest

/-! ## `Train` on memory: the writes go to the weights and nowhere else -/

theorem Memory_set_self (mem : Memory) (w : ℕ) (ws : List ℚ) (h : mem[w]? = some ws) :
    mem.set w ws = mem := by
  apply List.ext_getElem?
  intro i
  by_cases hi : w = i
  · subst hi
    have hlt : w < mem.length := by
      by_contra hge
      rw [List.getElem?_eq_none (by omega)] at h
      cases h
    rw [h]
    simp [hlt]
  · simp [hi]

theorem Memory_lt_of_getElem? (mem : Memory) (w : ℕ) (ws : List ℚ) (h : mem[w]? = some ws) :
    w < mem.length := by
  by_contra hge
  rw [List.getElem?_eq_none (by omega)] at h
  cases h

theorem derefRows_set (mem : Memory) (w : ℕ) (v : List ℚ) (X : List ℕ) (h : w ∉ X) :
    derefRows (mem.set w v) X = derefRows mem X := by
  unfold derefRows
  induction X with
  | nil => rfl
  | cons a rest ih =>
    have ha : w ≠ a := fun e => h (by rw [e]; exact List.mem_cons_self _ _)
    rw [List.mapM_cons, List.mapM_cons, ih (fun hr => h (List.mem_cons_of_mem _ hr)),
      List.getElem?_set_ne ha]

theorem derefRows_length (mem : Memory) (X : List ℕ) :
    ∀ rows, derefRows mem X = some rows → rows.length = X.length := by
  unfold derefRows
  induction X with
  | nil =>
    intro rows h
    cases h
    rfl
  | cons a rest ih =>
    intro rows h
    rw [List.mapM_cons] at h
    cases ha : mem[a]? with
    | none => rw [ha] at h; cases h
    | some r =>
      cases hr : List.mapM (fun address => mem[address]?) rest with
      | none => rw [ha, hr] at h; cases h
      | some rs =>
        rw [ha, hr] at h
        cases h
        simp [ih rs hr]

/-- The weight loop on memory, when the weights share no backing array with `y` or with
a row of `X`: it writes what `weightsLoop` computes to the address of the weights. -/
theorem weightsLoopMem_eq (lr : ℚ) (predictions : List ℚ) (X : List ℕ) (y numSamples w : ℕ)
    (mem : Memory) (ws labels : List ℚ) (rows : List (List ℚ))
    (hw : mem[w]? = some ws) (hX : derefRows mem X = some rows) (hy : mem[y]? = some labels)
    (hwX : w ∉ X) (hwy : w ≠ y) (j : ℕ) :
    weightsLoopMem lr predictions X y numSamples w mem j
      = (weightsLoop lr predictions labels rows numSamples ws j).map (fun v => mem.set w v) := by
  have hlt := Memory_lt_of_getElem? mem w ws hw
  induction j with
  | zero =>
    simp [weightsLoopMem, weightsLoop, Memory_set_self mem w ws hw]
  | succ j ih =>
    rw [weightsLoopMem, weightsLoop, ih]
    cases hj : weightsLoop lr predictions labels rows numSamples ws j with
    | none => rfl
    | some v =>
      simp only [Option.map_some', Option.bind_eq_bind, Option.some_bind,
        derefRows_set mem w v X hwX, hX, List.getElem?_set_ne hwy, hy]
      cases hg : gradientLoop predictions labels rows j numSamples with
      | none => rfl
      | some g =>
        simp only [Option.some_bind]
        have hv : (mem.set w v)[w]? = some v := by simp [hlt]
        rw [hv]
        simp only [Option.some_bind]
        cases hvj : v[j]? with
        | none => rfl
        | some vj => simp [List.set_set]

/-- The parameter update on memory, under the same separation: the update `updateStep`
computes, with the weights written to their address. -/
theorem updateStepMem_eq (lr : ℚ) (X : List ℕ) (y w : ℕ) (b : ℚ) (predictions : List ℚ)
    (mem : Memory) (ws labels : List ℚ) (rows : List (List ℚ))
    (hw : mem[w]? = some ws) (hX : derefRows mem X = some rows) (hy : mem[y]? = some labels)
    (hwX : w ∉ X) (hwy : w ≠ y) :
    updateStepMem lr X y predictions (PerceptronRef.mk w b) mem
      = (updateStep lr rows labels predictions (Perceptron.mk ws b)).map
          (fun q => (mem.set w q.Weights, PerceptronRef.mk w q.Bias)) := by
  have hlen := derefRows_length mem X rows hX
  unfold updateStepMem updateStep
  simp only [hw, Option.bind_eq_bind, Option.some_bind, hlen,
    weightsLoopMem_eq lr predictions X y X.length w mem ws labels rows hw hX hy hwX hwy]
  cases hj : weightsLoop lr predictions labels rows X.length ws ws.length with
  | none => rfl
  | some v =>
    simp only [Option.map_some', Option.some_bind, List.getElem?_set_ne hwy, hy]
    cases hb : biasLoop predictions labels X.length with
    | none => rfl
    | some g => rfl

/-- The epoch loop on memory, under the same separation: the run of `trainLoop` on the
values held in memory, with the final weights written to their address. -/
theorem trainLoopMem_eq (X : List ℕ) (y w : ℕ) (config : TrainingConfig)
    (rows : List (List ℚ)) (labels : List ℚ) (hwX : w ∉ X) (hwy : w ≠ y) :
    ∀ (left epoch : ℕ) (prevLoss b : ℚ) (ws : List ℚ) (mem : Memory),
      mem[w]? = some ws → derefRows mem X = some rows → mem[y]? = some labels →
      trainLoopMem X y config left epoch prevLoss (PerceptronRef.mk w b) mem
        = (trainLoop rows labels config left epoch prevLoss (Perceptron.mk ws b)).map
            (fun r => (mem.set w r.1.Weights, PerceptronRef.mk w r.1.Bias, r.2)) := by
  intro left
  induction left with
  | zero =>
    intro epoch prevLoss b ws mem hw _ _
    simp [trainLoopMem, trainLoop, Memory_set_self mem w ws hw]
  | succ left ih =>
    intro epoch prevLoss b ws mem hw hX hy
    have hlt := Memory_lt_of_getElem? mem w ws hw
    rw [trainLoopMem, trainLoop]
    simp only [hw, hX, hy, Option.bind_eq_bind, Option.some_bind]
    cases hp : (Perceptron.mk ws b).PredictBatch rows with
    | none => rfl
    | some predictions =>
      simp only [Option.some_bind]
      cases hl : CrossEntropy labels predictions with
      | none => rfl
      | some loss =>
        simp only [Option.some_bind]
        by_cases hstop : epoch > 0 ∧ prevLoss - loss < config.EarlyStopDelta
        · rw [if_pos hstop, if_pos hstop]
          simp [Memory_set_self mem w ws hw]
        · rw [if_neg hstop, if_neg hstop,
            updateStepMem_eq config.LearningRate X y w b predictions mem ws labels rows
              hw hX hy hwX hwy]
          cases hu : updateStep config.LearningRate rows labels predictions
              (Perceptron.mk ws b) with
          | none => rfl
          | some q =>
            simp only [Option.map_some', Option.some_bind]
            by_cases hL : config.LogEvery = 0
            · rw [if_pos hL, if_pos hL]
              rfl
            · rw [if_neg hL, if_neg hL,
                ih (epoch + 1) loss q.Bias q.Weights (mem.set w q.Weights)
                  (by simp [hlt]) (by rw [derefRows_set mem w _ X hwX]; exact hX)
                  (by rw [List.getElem?_set_ne hwy]; exact hy)]
              cases hr : trainLoop rows labels config left (epoch + 1) loss q with
              | none => rfl
              | some rest => simp [List.set_set]

/-- Go `Train` on memory, when the weights share no backing array with `y` or with a row
of `X`: the result of `Train` on the values held in memory, with the final weights
written to their address and every other address left as it was. -/
theorem Train_on_memory (X : List ℕ) (y w : ℕ) (b : ℚ) (config : Option TrainingConfig)
    (mem : Memory) (ws labels : List ℚ) (rows : List (List ℚ))
    (hw : mem[w]? = some ws) (hX : derefRows mem X = some rows) (hy : mem[y]? = some labels)
    (hwX : w ∉ X) (hwy : w ≠ y) :
    (PerceptronRef.mk w b).Train X y config mem
      = ((Perceptron.mk ws b).Train rows labels config).map
          (fun r => (mem.set w r.1.Weights, PerceptronRef.mk w r.1.Bias, r.2)) :=
  trainLoopMem_eq X y w _ rows labels hwX hwy _ 0 0 b ws mem hw hX hy

theorem alias_PredictBatch : (Perceptron.mk [1] 0).PredictBatch [[1]] = some [Sigmoid 1] := by
  rw [PredictBatch_eq_map _ _ (by decide)]
  simp

theorem alias_Train :
    ∃ events : List TrainEvent,
      (PerceptronRef.mk 0 0).Train [0] 1 (some (TrainingConfig.mk (1 / 2) 1 1 0)) [[1], [1]]
        = some ([[1 + (1 - Sigmoid 1) / 2], [1]], PerceptronRef.mk 0 ((1 - Sigmoid 1) / 2),
            events) := by
  have hl := CrossEntropy_eq_sum [1] [Sigmoid 1] rfl
  have hE : (TrainingConfig.mk (1 / 2) 1 1 0).Epochs.toNat = 1 := rfl
  unfold PerceptronRef.Train
  simp only [Option.getD_some, hE]
  rw [trainLoopMem]
  have hd : ∀ m : Memory, derefRows m [0] = m[0]?.bind (fun r => some [r]) := by
    intro m
    unfold derefRows
    rw [List.mapM_cons, List.mapM_nil]
    cases m[0]? <;> rfl
  simp [hd, alias_PredictBatch, hl, updateStepMem, weightsLoopMem, gradientLoop,
    biasLoop, trainLoopMem]
  constructor <;> norm_num <;> ring

/-- C17 (counterexample): `Train` writes to a row of `X` that shares its backing array
with the weights. The memory holds `[1]` at address 0 and `[1]` at address 1; the
weights are the slice at address 0, `X` has one row, the slice at address 0 again, and
`y` is the slice at address 1, so the data is dimensionally consistent (one row of
length 1, one label, one weight). After `Train` with learning rate `1/2`, one epoch and
`LogEvery = 1`, the row of `X` is `[1 + (1 - Sigmoid(1))/2]`, not `[1]`. -/
theorem C17_train_writes_aliased_row :
    ∃ (mem : Memory) (p : PerceptronRef) (events : List TrainEvent),
      ([[1], [1]] : Memory)[0]? = some [1]
      ∧ derefRows [[1], [1]] [0] = some [[1]]
      ∧ ([[1], [1]] : Memory)[1]? = some [1]
      ∧ (PerceptronRef.mk 0 0).Train [0] 1 (some (TrainingConfig.mk (1 / 2) 1 1 0))
          [[1], [1]] = some (mem, p, events)
      ∧ derefRows mem [0] ≠ some [[1]] := by
  obtain ⟨events, h⟩ := alias_Train
  refine ⟨_, _, events, rfl, rfl, rfl, h, ?_⟩
  have hd : derefRows [[1 + (1 - Sigmoid 1) / 2], [1]] [0]
      = some [[1 + (1 - Sigmoid 1) / 2]] := rfl
  rw [hd]
  intro heq
  simp only [Option.some.injEq, List.cons.injEq, and_true] at heq
  have hS := (Sigmoid_nonneg_bounds (z := 1) (by norm_num) (by norm_num)).2
  linarith

/-- C17 (amended): weight-length invariant. A perceptron built by
`NewPerceptronWithSeed(F, seed)` has exactly `F` weights and bias `0`; `Predict` and
`PredictBatch` leave the receiver as it was; `Train`, on dimensionally consistent data
and with any configuration, returns a model with the same number of weights, and (when
it does not fail on `LogEvery = 0`) that model is the one reached by some number `m` of
updates each computed from the `X` and `y` passed in. On memory, when the weights share
no backing array with `y` or with a row of `X`, `Train` leaves `X`, `y` and every
address other than that of the weights unchanged, keeps the address and the length of
the weights, and stores there the weights that `Train` computes on the values. -/
theorem C17_weight_length_invariant (normFloat64 : ℤ → ℕ → ℚ) (numFeatures seed : ℤ)
    (p : Perceptron) (X : List (List ℚ)) (y x : List ℚ) (config : Option TrainingConfig)
    (hF : 0 ≤ numFeatures) (hx : x.length = p.Weights.length)
    (hrow : ∀ row ∈ X, row.length = p.Weights.length) (hy : y.length = X.length) :
    (∃ p0 : Perceptron, NewPerceptronWithSeed normFloat64 numFeatures seed = some p0
      ∧ (p0.Weights.length : ℤ) = numFeatures ∧ p0.Bias = 0)
    ∧ (∃ r : ℚ, p.PredictRun x = some (p, r))
    ∧ (∃ preds : List ℚ, p.PredictBatchRun X = some (p, preds))
    ∧ (∀ (q : Perceptron) (events : List TrainEvent),
        p.Train X y config = some (q, events) → q.Weights.length = p.Weights.length)
    ∧ ((config.getD DefaultTrainingConfig).LogEvery ≠ 0 →
        ∃ (m : ℕ) (q : Perceptron) (events : List TrainEvent),
          p.Train X y config = some (q, events)
          ∧ afterUpdates (config.getD DefaultTrainingConfig).LearningRate X y p m = some q
          ∧ q.Weights.length = p.Weights.length)
    ∧ (∀ (mem : Memory) (rowsAt : List ℕ) (labelsAt weightsAt : ℕ),
        mem[weightsAt]? = some p.Weights → derefRows mem rowsAt = some X →
        mem[labelsAt]? = some y → weightsAt ∉ rowsAt → weightsAt ≠ labelsAt →
        (∀ (mem1 : Memory) (p1 : PerceptronRef) (events : List TrainEvent),
          (PerceptronRef.mk weightsAt p.Bias).Train rowsAt labelsAt config mem
            = some (mem1, p1, events) →
          derefRows mem1 rowsAt = some X
          ∧ mem1[labelsAt]? = some y
          ∧ (∀ a, a ≠ weightsAt → mem1[a]? = mem[a]?)
          ∧ p1.Weights = weightsAt
          ∧ ∃ ws : List ℚ, mem1[weightsAt]? = some ws
              ∧ ws.length = p.Weights.length
              ∧ p.Train X y config = some (Perceptron.mk ws p1.Bias, events))
        ∧ ((config.getD DefaultTrainingConfig).LogEvery ≠ 0 →
            ∃ (mem1 : Memory) (p1 : PerceptronRef) (events : List TrainEvent),
              (PerceptronRef.mk weightsAt p.Bias).Train rowsAt labelsAt config mem
                = some (mem1, p1, events))) := by
  have hlenT : ∀ (q : Perceptron) (events : List TrainEvent),
      p.Train X y config = some (q, events) → q.Weights.length = p.Weights.length := by
    intro q events hrun
    exact trainLoop_length X y (config.getD DefaultTrainingConfig) p.Weights.length hy hrow
      _ 0 0 p (q, events) rfl hrun
  have hrunT : (config.getD DefaultTrainingConfig).LogEvery ≠ 0 →
      ∃ (m : ℕ) (q : Perceptron) (events : List TrainEvent),
        p.Train X y config = some (q, events)
        ∧ afterUpdates (config.getD DefaultTrainingConfig).LearningRate X y p m = some q
        ∧ q.Weights.length = p.Weights.length := by
    intro hL
    obtain ⟨m, q, events, hrun, hm, _⟩ :=
      trainLoop_spec X y (config.getD DefaultTrainingConfig) p hy hrow hL
        (config.getD DefaultTrainingConfig).Epochs.toNat 0 0 p rfl rfl
        (fun h => absurd h (by decide))
    exact ⟨m, q, events, hrun, hm, hlenT q events hrun⟩
  refine ⟨NewPerceptronWithSeed_eq normFloat64 numFeatures seed hF, ?_, ?_, hlenT, hrunT, ?_⟩
  · rw [Perceptron.PredictRun, Predict_eq_of_length p x hx]
    exact ⟨_, rfl⟩
  · rw [PredictBatchRun_eq, PredictBatch_eq_map p X hrow]
    exact ⟨_, rfl⟩
  · intro mem rowsAt labelsAt weightsAt hw hX hlab hwX hwy
    have hlt := Memory_lt_of_getElem? mem weightsAt p.Weights hw
    have hsim : (PerceptronRef.mk weightsAt p.Bias).Train rowsAt labelsAt config mem
        = (p.Train X y config).map
            (fun r => (mem.set weightsAt r.1.Weights, PerceptronRef.mk weightsAt r.1.Bias,
              r.2)) :=
      Train_on_memory rowsAt labelsAt weightsAt p.Bias config mem p.Weights y X hw hX hlab
        hwX hwy
    constructor
    · intro mem1 p1 events hrun
      rw [hsim] at hrun
      cases hT : p.Train X y config with
      | none =>
        rw [hT] at hrun
        cases hrun
      | some r =>
        obtain ⟨q, ev⟩ := r
        rw [hT] at hrun
        simp only [Option.map_some', Option.some.injEq, Prod.mk.injEq] at hrun
        obtain ⟨hm, hp, hev⟩ := hrun
        subst hm hp hev
        refine ⟨by rw [derefRows_set mem weightsAt _ rowsAt hwX]; exact hX,
          by rw [List.getElem?_set_ne hwy]; exact hlab,
          fun a ha => List.getElem?_set_ne (Ne.symm ha), rfl,
          q.Weights, by simp [hlt], hlenT q ev hT, rfl⟩
    · intro hL
      obtain ⟨m, q, events, hrun, _⟩ := hrunT hL
      rw [hsim, hrun]
      exact ⟨_, _, _, rfl⟩

/-- C17 at three features, seed `42`, a generator that always draws `1`, the model with
weights `[0]` and bias `0`, the dataset `X = [[1]]`, `y = [1]`, and the default
configuration; on memory the weights are at address 0, the row of `X` at address 1 and
`y` at address 2. -/
theorem C17_weight_length_invariant_witness :
    (∃ p0 : Perceptron, NewPerceptronWithSeed (fun _ _ => 1) 3 42 = some p0
      ∧ (p0.Weights.length : ℤ) = 3 ∧ p0.Bias = 0)
    ∧ (∃ (m : ℕ) (q : Perceptron) (events : List TrainEvent),
          (Perceptron.mk [0] 0).Train [[1]] [1] none = some (q, events)
          ∧ afterUpdates ((none : Option TrainingConfig).getD DefaultTrainingConfig).LearningRate
              [[1]] [1] (Perceptron.mk [0] 0) m = some q
          ∧ q.Weights.length = (Perceptron.mk [0] 0).Weights.length)
    ∧ (∃ (mem1 : Memory) (p1 : PerceptronRef) (events : List TrainEvent),
          (PerceptronRef.mk 0 0).Train [1] 2 none [[0], [1], [1]] = some (mem1, p1, events)
          ∧ derefRows mem1 [1] = some [[1]]
          ∧ mem1[2]? = some [1]
          ∧ p1.Weights = 0
          ∧ ∃ ws : List ℚ, mem1[0]? = some ws ∧ ws.length = 1) := by
  have h := C17_weight_length_invariant (fun _ _ => 1) 3 42 (Perceptron.mk [0] 0) [[1]] [1]
    [1] none (by decide) rfl (by decide) rfl
  obtain ⟨h1, _, _, _, h5, h6⟩ := h
  obtain ⟨hframe, hruns⟩ := h6 [[0], [1], [1]] [1] 2 0 rfl rfl rfl (by decide) (by decide)
  obtain ⟨mem1, p1, events, hrun⟩ := hruns (by decide)
  obtain ⟨hX, hy, _, hp, ws, hws, hlen, _⟩ := hframe mem1 p1 events hrun
  exact ⟨h1, h5 (by decide), mem1, p1, events, hrun, hX, hy, hp, ws, hws, hlen⟩

/-! ## The four-sample example: `X = [[-2], [-1], [1], [2]]`, `y = [0, 0, 1, 1]` -/

theorem Sigmoid_add_neg {z : ℚ} (hlo : -20 ≤ z) (hhi : z ≤ 20) :
    Sigmoid z + Sigmoid (-z) = 1 := by
  rcases lt_trichotomy z 0 with hneg | hzero | hpos
  · rw [Sigmoid_neg hlo hneg]; norm_num
  · subst hzero; rw [neg_zero, Sigmoid_zero]; norm_num
  · rw [Sigmoid_neg (z := -z) (by linarith) (by linarith), neg_neg]; norm_num

theorem example_rows :
    ∀ row ∈ ([[-2], [-1], [1], [2]] : List (List ℚ)), row.length = 1 := by
  intro row hr
  simp at hr
  rcases hr with h | h | h | h <;> subst h <;> rfl

theorem example_epochUpdate (w : ℚ) (hlo : -10 ≤ w) (hhi : w ≤ 10) :
    epochUpdate 0.5 [[-2], [-1], [1], [2]] [0, 0, 1, 1] (Perceptron.mk [w] 0)
      = some (Perceptron.mk [w + (3 - 2 * Sigmoid (2 * w) - Sigmoid w) / 4] 0) := by
  have h2 := Sigmoid_add_neg (z := w * 2) (by linarith) (by linarith)
  have h1 := Sigmoid_add_neg (z := w) (by linarith) (by linarith)
  have h2' : Sigmoid (-(w * 2)) = 1 - Sigmoid (w * 2) := by linarith
  have h1' : Sigmoid (-w) = 1 - Sigmoid w := by linarith
  unfold epochUpdate
  rw [PredictBatch_eq_map _ _ example_rows]
  simp only [Option.bind_eq_bind, Option.some_bind]
  rw [updateStep_eq _ _ _ _ _ rfl rfl example_rows]
  simp [Finset.sum_range_succ, List.range_succ, h2', h1']
  constructor
  · rw [mul_comm 2 w]
    norm_num
    ring
  · right
    ring

theorem Sigmoid_bounds_of_abs_le {z : ℚ} (hlo : -20 ≤ z) (hhi : z ≤ 20) :
    0 < Sigmoid z ∧ Sigmoid z < 1 := by
  by_cases hneg : z < 0
  · have hb := Sigmoid_nonneg_bounds (z := -z) (by linarith) (by linarith)
    have hsum := Sigmoid_add_neg hlo hhi
    constructor <;> linarith [hb.1, hb.2]
  · push_neg at hneg
    have hb := Sigmoid_nonneg_bounds hneg hhi
    constructor <;> linarith [hb.1, hb.2]

theorem Sigmoid_le_half_of_nonpos {z : ℚ} (h : z ≤ 0) : Sigmoid z ≤ 1 / 2 := by
  rcases h.lt_or_eq with hneg | hzero
  · exact (Sigmoid_lt_half_of_neg hneg).le
  · rw [hzero, Sigmoid_zero]

theorem Sigmoid_one_ge : (0.73 : ℚ) ≤ Sigmoid 1 := by
  rw [Sigmoid_nonneg (by norm_num) (by norm_num), ExpTaylor_series (by norm_num) (by norm_num)]
  decide!

theorem Sigmoid_two_ge : (0.88 : ℚ) ≤ Sigmoid 2 := by
  rw [Sigmoid_nonneg (by norm_num) (by norm_num), ExpTaylor_series (by norm_num) (by norm_num)]
  decide!

/-- The models reached on the example: the bias stays `0`, the weight is positive
from the first update on and stays below `1.375 + 0.13 * e`. -/
theorem example_afterUpdates (w0 : ℚ) (hw : |w0| ≤ 0.1) :
    ∀ e : ℕ, e ≤ 50 → ∃ w : ℚ,
      afterUpdates 0.5 [[-2], [-1], [1], [2]] [0, 0, 1, 1] (Perceptron.mk [w0] 0) e
        = some (Perceptron.mk [w] 0)
      ∧ -0.1 ≤ w ∧ (1 ≤ e → 0 < w) ∧ w ≤ 1.375 + 0.13 * (e : ℚ) := by
  have h01 : (0.1 : ℚ) = 1 / 10 := by norm_num
  have h1375 : (1.375 : ℚ) = 11 / 8 := by norm_num
  have h013 : (0.13 : ℚ) = 13 / 100 := by norm_num
  rw [h01, abs_le] at hw
  rw [h01, h1375, h013]
  intro e
  induction e with
  | zero =>
    intro _
    refine ⟨w0, rfl, by linarith [hw.1], fun h => absurd h (by decide), ?_⟩
    norm_num
    linarith [hw.2]
  | succ e ih =>
    intro he
    obtain ⟨w, hrun, hlo, _, hhi⟩ := ih (by omega)
    have hecast : (e : ℚ) ≤ 49 := by exact_mod_cast (by omega : e ≤ 49)
    have hw10 : w ≤ 10 := by linarith
    obtain ⟨hs1pos, hs1lt⟩ := Sigmoid_bounds_of_abs_le (z := w) (by linarith) (by linarith)
    obtain ⟨hs2pos, hs2lt⟩ := Sigmoid_bounds_of_abs_le (z := 2 * w) (by linarith) (by linarith)
    refine ⟨w + (3 - 2 * Sigmoid (2 * w) - Sigmoid w) / 4, ?_, ?_, ?_, ?_⟩
    · rw [afterUpdates_succ, hrun]
      exact example_epochUpdate w (by linarith) hw10
    · linarith
    · intro _
      by_cases hpos : 0 < w
      · linarith
      · push_neg at hpos
        have h1 := Sigmoid_le_half_of_nonpos hpos
        have h2 := Sigmoid_le_half_of_nonpos (z := 2 * w) (by linarith)
        linarith
    · push_cast
      by_cases hone : 1 ≤ w
      · have h1 : Sigmoid 1 ≤ Sigmoid w := Sigmoid_mono_nonneg (by norm_num) hone (by linarith)
        have h2 : Sigmoid 2 ≤ Sigmoid (2 * w) :=
          Sigmoid_mono_nonneg (by norm_num) (by linarith) (by linarith)
        have h3 := Sigmoid_one_ge
        have h4 := Sigmoid_two_ge
        norm_num at h3 h4
        linarith
      · push_neg at hone
        have he0 : (0 : ℚ) ≤ (e : ℚ) := Nat.cast_nonneg e
        by_cases hpos : 0 ≤ w
        · have h1 := (Sigmoid_nonneg_bounds hpos (by linarith)).1
          have h2 := (Sigmoid_nonneg_bounds (z := 2 * w) (by linarith) (by linarith)).1
          linarith
        · push_neg at hpos
          linarith

/-- On the example a model with positive weight and bias `0` classifies all four
samples correctly at threshold `0.5`. -/
theorem example_accuracy (w : ℚ) (hw : 0 < w) (mconfig : utils.MetricsConfig)
    (hthr : mconfig.Threshold = 0.5) :
    utils.Accuracy (Perceptron.mk [w] 0) [[-2], [-1], [1], [2]] [0, 0, 1, 1] (some mconfig)
      = some 100 := by
  have hhalf : (2 : ℚ)⁻¹ = 1 / 2 := by norm_num
  have ha : ¬ ((2 : ℚ)⁻¹ < Sigmoid (-(w * 2))) := by
    rw [hhalf]; exact not_lt.mpr (Sigmoid_lt_half_of_neg (by linarith)).le
  have hb : ¬ ((2 : ℚ)⁻¹ < Sigmoid (-w)) := by
    rw [hhalf]; exact not_lt.mpr (Sigmoid_lt_half_of_neg (by linarith)).le
  have hc : (2 : ℚ)⁻¹ < Sigmoid w := by rw [hhalf]; exact Sigmoid_gt_half_of_pos hw
  have hd : (2 : ℚ)⁻¹ < Sigmoid (w * 2) := by
    rw [hhalf]; exact Sigmoid_gt_half_of_pos (by linarith)
  have h05 : (0.5 : ℚ) = 1 / 2 := by norm_num
  unfold utils.Accuracy
  rw [PredictBatch_eq_map _ _ example_rows]
  simp [Finset.sum_range_succ, utils.accuracyLoop, hthr, h05, ha, hb, hc, hd]
  norm_num

/-- C16: reading `float64` as exact arithmetic, for `X = [[-2],[-1],[1],[2]]`,
`y = [0,0,1,1]`, a perceptron with one weight `w0` with `|w0| ≤ 0.1` and bias `0`, and a
config with `LearningRate = 0.5`, `Epochs = 50`, `LogEvery ≥ 1` and any
`EarlyStopDelta ≥ 0`, after `Train` the weight is strictly positive, the bias satisfies
`|bias| ≤ 1e-9`, and `utils.Accuracy` on `(X, y)` at threshold `0.5` is `≥ 75`. -/
theorem C16_example_training (w0 : ℚ) (config : TrainingConfig)
    (mconfig : utils.MetricsConfig) (hw : |w0| ≤ 0.1) (hlr : config.LearningRate = 0.5)
    (hE : config.Epochs = 50) (hL : 1 ≤ config.LogEvery) (_hdelta : 0 ≤ config.EarlyStopDelta)
    (hthr : mconfig.Threshold = 0.5) :
    ∃ (w b : ℚ) (events : List TrainEvent) (acc : ℚ),
      (Perceptron.mk [w0] 0).Train [[-2], [-1], [1], [2]] [0, 0, 1, 1] (some config)
        = some (Perceptron.mk [w] b, events)
      ∧ 0 < w ∧ |b| ≤ 1e-9
      ∧ utils.Accuracy (Perceptron.mk [w] b) [[-2], [-1], [1], [2]] [0, 0, 1, 1]
          (some mconfig) = some acc
      ∧ 75 ≤ acc := by
  obtain ⟨m, q, events, hrun, hm, _, hle, hpos, _⟩ :=
    trainLoop_spec [[-2], [-1], [1], [2]] [0, 0, 1, 1] config (Perceptron.mk [w0] 0) rfl
      example_rows (by omega) config.Epochs.toNat 0 0 (Perceptron.mk [w0] 0) rfl rfl
      (fun h => absurd h (by decide))
  have htoNat : config.Epochs.toNat = 50 := by rw [hE]; rfl
  rw [htoNat] at hle hpos
  obtain ⟨w, hw', _, hwpos, _⟩ := example_afterUpdates w0 hw m (by omega)
  rw [hlr, hw'] at hm
  have hq : q = Perceptron.mk [w] 0 := (Option.some.inj hm).symm
  subst hq
  refine ⟨w, 0, events, 100, hrun, hwpos (hpos (by decide)), by norm_num,
    example_accuracy w (hwpos (hpos (by decide))) mconfig hthr, by norm_num⟩

/-- C16 at `w0 = 0`, `LogEvery = 1`, `EarlyStopDelta = 0`. -/
theorem C16_example_training_witness :
    ∃ (w b : ℚ) (events : List TrainEvent) (acc : ℚ),
      (Perceptron.mk [0] 0).Train [[-2], [-1], [1], [2]] [0, 0, 1, 1]
        (some (TrainingConfig.mk 0.5 50 1 0)) = some (Perceptron.mk [w] b, events)
      ∧ 0 < w ∧ |b| ≤ 1e-9
      ∧ utils.Accuracy (Perceptron.mk [w] b) [[-2], [-1], [1], [2]] [0, 0, 1, 1]
          (some (utils.MetricsConfig.mk 0.5 false)) = some acc
      ∧ 75 ≤ acc :=
  C16_example_training 0 (TrainingConfig.mk 0.5 50 1 0) (utils.MetricsConfig.mk 0.5 false)
    (by norm_num) rfl rfl (by decide) (by decide) rfl

/-! ### A run on which the loss rises and training goes on

The model with weight `[1]` and bias `0` on the dataset `X = [[1], [1]]`, `y = [1, 0]`,
with learning rate `100` and `EarlyStopDelta = -100`. -/

theorem logDouble_eq (n : ℕ) :
    ∀ (y : ℚ) (k : ℤ), 0 < y → 1 / 2 ≤ y * 2 ^ n → y * 2 ^ n < 1 →
      logDouble y k = (y * 2 ^ n, k - n) := by
  induction n with
  | zero =>
    intro y k _ hlo _
    rw [logDouble, dif_neg (by norm_num at hlo ⊢; intro _; linarith)]
    simp
  | succ n ih =>
    intro y k hpos hlo hhi
    have h20 : (2.0 : ℚ) = 2 := by norm_num
    have hpow : (1 : ℚ) ≤ 2 ^ n := one_le_pow₀ (by norm_num)
    have hy : y * 2 ^ (n + 1) = y * 2.0 * 2 ^ n := by rw [pow_succ, h20]; ring
    have hlt : y < 1 / 2 := by
      rw [pow_succ] at hhi
      nlinarith
    rw [logDouble, dif_pos ⟨hpos, by norm_num; linarith⟩,
      ih (y * 2.0) (k - 1) (by rw [h20]; linarith) (by rw [← hy]; exact hlo)
        (by rw [← hy]; exact hhi), ← hy]
    congr 1
    push_cast
    ring

/-- The value of `Log` on an argument below `0.8` that `n` doublings bring into
`[1/2, 1)`. -/
theorem Log_of_doublings (x : ℚ) (n : ℕ) (h0 : 0 < x) (h : x < 0.8)
    (hlo : 1 / 2 ≤ x * 2 ^ n) (hhi : x * 2 ^ n < 1) :
    Log x = (((0 : ℤ) - (n : ℤ) : ℤ) : ℚ) * 0.6931471805599453
      + logSeriesLoop (x * 2 ^ n - 1.0) 29 2.0 (x * 2 ^ n - 1.0)
          ((x * 2 ^ n - 1.0) * (x * 2 ^ n - 1.0)) (-1.0) := by
  rw [Log_of_lt x h0 h, logDouble_eq n x 0 h0 hlo hhi]

theorem rise_rows :
    ∀ row ∈ ([[1], [1]] : List (List ℚ)), row.length = 1 := by
  intro row hr
  simp at hr
  subst hr
  rfl

theorem rise_PredictBatch_zero :
    (Perceptron.mk [1] 0).PredictBatch [[1], [1]] = some [Sigmoid 1, Sigmoid 1] := by
  rw [PredictBatch_eq_map _ _ rise_rows]
  simp

theorem rise_lossAfter_zero :
    lossAfter 100 [[1], [1]] [1, 0] (Perceptron.mk [1] 0) 0
      = some (-(Log (clampPrediction (Sigmoid 1)) + Log (1 - clampPrediction (Sigmoid 1)))
          / 2) := by
  rw [lossAfter_eq _ _ _ _ (Perceptron.mk [1] 0) 0 _ rfl rise_PredictBatch_zero,
    CrossEntropy_eq_sum [1, 0] [Sigmoid 1, Sigmoid 1] rfl]
  simp [Finset.sum_range_succ]

theorem rise_afterUpdates_one :
    afterUpdates 100 [[1], [1]] [1, 0] (Perceptron.mk [1] 0) 1
      = some (Perceptron.mk [51 - 100 * Sigmoid 1] (50 - 100 * Sigmoid 1)) := by
  rw [afterUpdates_succ]
  simp only [afterUpdates, Option.some_bind, epochUpdate, rise_PredictBatch_zero,
    Option.bind_eq_bind]
  rw [updateStep_eq _ _ _ _ _ rfl rfl rise_rows]
  simp [Finset.sum_range_succ, List.range_succ]
  constructor <;> ring

theorem rise_PredictBatch_one :
    (Perceptron.mk [51 - 100 * Sigmoid 1] (50 - 100 * Sigmoid 1)).PredictBatch [[1], [1]]
      = some [2.0611536224385579e-9, 2.0611536224385579e-9] := by
  have hS := Sigmoid_one_ge
  have hz : (50 - 100 * Sigmoid 1) + (51 - 100 * Sigmoid 1) * 1 < -20 := by
    norm_num at hS ⊢
    linarith
  rw [PredictBatch_eq_map _ _ rise_rows]
  simp [Finset.sum_range_succ]
  have hlo := Sigmoid_lo hz
  norm_num at hlo ⊢
  exact hlo

theorem rise_lossAfter_one :
    lossAfter 100 [[1], [1]] [1, 0] (Perceptron.mk [1] 0) 1
      = some (-(Log (clampPrediction 2.0611536224385579e-9)
            + Log (1 - clampPrediction 2.0611536224385579e-9)) / 2) := by
  rw [lossAfter_eq _ _ _ _ _ 1 _ rise_afterUpdates_one rise_PredictBatch_one,
    CrossEntropy_eq_sum [1, 0] [2.0611536224385579e-9, 2.0611536224385579e-9] rfl]
  simp [Finset.sum_range_succ]

/-- On this run the loss rises over the first update, from about `0.81` to about `10`,
by less than `100`. -/
theorem rise_loss_increase :
    -(Log (clampPrediction (Sigmoid 1)) + Log (1 - clampPrediction (Sigmoid 1))) / 2
      < -(Log (clampPrediction 2.0611536224385579e-9)
            + Log (1 - clampPrediction 2.0611536224385579e-9)) / 2
    ∧ ¬ (-(Log (clampPrediction (Sigmoid 1)) + Log (1 - clampPrediction (Sigmoid 1))) / 2
        - -(Log (clampPrediction 2.0611536224385579e-9)
            + Log (1 - clampPrediction 2.0611536224385579e-9)) / 2 < -100) := by
  rw [Sigmoid_nonneg (by norm_num) (by norm_num), ExpTaylor_series (by norm_num) (by norm_num)]
  have hc : clampPrediction (expLoop 1 24 1.0 1.0 1.0 / (expLoop 1 24 1.0 1.0 1.0 + 1.0))
      = expLoop 1 24 1.0 1.0 1.0 / (expLoop 1 24 1.0 1.0 1.0 + 1.0) := by
    decide!
  have hc' : clampPrediction 2.0611536224385579e-9 = 2.0611536224385579e-9 := by
    decide!
  rw [hc, hc', Log_of_mid _ (by decide!) (by decide!),
    Log_of_doublings _ 1 (by decide!) (by decide!) (by decide!) (by decide!),
    Log_of_doublings _ 28 (by decide!) (by decide!) (by decide!) (by decide!),
    Log_of_near _ (by decide!) (by decide!) (by decide!)]
  constructor <;> decide!

theorem rise_afterUpdates_two :
    afterUpdates 100 [[1], [1]] [1, 0] (Perceptron.mk [1] 0) 2
      = some (Perceptron.mk [51 - 100 * Sigmoid 1 + (50 - 100 * 2.0611536224385579e-9)]
          (50 - 100 * Sigmoid 1 + (50 - 100 * 2.0611536224385579e-9))) := by
  rw [afterUpdates_succ, rise_afterUpdates_one]
  simp only [Option.some_bind, epochUpdate, rise_PredictBatch_one, Option.bind_eq_bind]
  rw [updateStep_eq _ _ _ _ _ rfl rfl rise_rows]
  simp [Finset.sum_range_succ, List.range_succ]
  constructor <;> ring

/-- C2 fails where `EarlyStopDelta` is negative. The model with weight `[1]` and bias
`0` is trained on `X = [[1], [1]]`, `y = [1, 0]` with learning rate `100`, two epochs,
`LogEvery = 1` and `EarlyStopDelta = -100`. The loss rises over the first update
(`L_0 < L_1`, from about `0.81` to about `10`), yet training does not halt at epoch 1:
`Train` returns the model after two updates, which is not the model after one. -/
theorem C2_loss_increase_does_not_halt :
    ∃ (a b : ℚ) (q : Perceptron) (events : List TrainEvent),
      lossAfter 100 [[1], [1]] [1, 0] (Perceptron.mk [1] 0) 0 = some a
      ∧ lossAfter 100 [[1], [1]] [1, 0] (Perceptron.mk [1] 0) 1 = some b
      ∧ a < b
      ∧ (Perceptron.mk [1] 0).Train [[1], [1]] [1, 0]
          (some (TrainingConfig.mk 100 2 1 (-100))) = some (q, events)
      ∧ afterUpdates 100 [[1], [1]] [1, 0] (Perceptron.mk [1] 0) 2 = some q
      ∧ afterUpdates 100 [[1], [1]] [1, 0] (Perceptron.mk [1] 0) 1 ≠ some q := by
  obtain ⟨m, q, events, hrun, hm, _, hle, hpos, _, hhalt⟩ :=
    trainLoop_spec [[1], [1]] [1, 0] (TrainingConfig.mk 100 2 1 (-100)) (Perceptron.mk [1] 0)
      rfl rise_rows (by decide) 2 0 0 (Perceptron.mk [1] 0) rfl rfl
      (fun h => absurd h (by decide))
  have hm2 : m = 2 := by
    by_contra hne
    have h1 : 1 ≤ m := hpos (by decide)
    have hm1 : m = 1 := by omega
    subst hm1
    obtain ⟨a, b, ha, hb, hab, _⟩ := hhalt (by decide)
    have ha' : lossAfter 100 [[1], [1]] [1, 0] (Perceptron.mk [1] 0) 0 = some a := ha
    have hb' : lossAfter 100 [[1], [1]] [1, 0] (Perceptron.mk [1] 0) 1 = some b := hb
    rw [rise_lossAfter_zero] at ha'
    rw [rise_lossAfter_one] at hb'
    cases ha'
    cases hb'
    exact rise_loss_increase.2 hab
  subst hm2
  have hm' : afterUpdates 100 [[1], [1]] [1, 0] (Perceptron.mk [1] 0) 2 = some q := hm
  refine ⟨_, _, q, events, rise_lossAfter_zero, rise_lossAfter_one, rise_loss_increase.1,
    hrun, hm', ?_⟩
  rw [rise_afterUpdates_two] at hm'
  cases hm'
  rw [rise_afterUpdates_one]
  intro h
  simp only [Option.some.injEq, Perceptron.mk.injEq] at h
  have hb := h.2
  norm_num at hb

end model
